import Mathlib

/-!
# Verification of the picmap catalog sync and sampling engine

Shallow embedding of `tools/sync_webdav.py` and `nsy/plugins/picmap/__init__.py`.

URL handling in the source goes through Python's `urllib.parse`
(`urlparse`, `urlunparse`, `quote`, `urljoin`); those library functions are
embedded here on `List Char`, following the CPython implementation.  The
embedding is restricted to the domain the theorems use: the IPv6
bracketed-host validation and the Unicode-NFKC netloc check of `urlsplit`
(which can only reject inputs containing `[`/`]` or non-ASCII characters)
are omitted, and theorems about the normalizer therefore hypothesize
ASCII, bracket-free input.
-/

namespace Picmap

/-! ## ASCII character helpers -/

def isAsciiUpper (c : Char) : Bool := 65 ≤ c.toNat && c.toNat ≤ 90

def isAsciiLower (c : Char) : Bool := 97 ≤ c.toNat && c.toNat ≤ 122

def isAsciiAlpha (c : Char) : Bool := isAsciiUpper c || isAsciiLower c

def isAsciiDigit (c : Char) : Bool := 48 ≤ c.toNat && c.toNat ≤ 57

/-- Python `str.lower` restricted to ASCII letters. -/
def lowerChar (c : Char) : Char :=
  if isAsciiUpper c then Char.ofNat (c.toNat + 32) else c

/-- Characters allowed in a URL scheme (`urllib.parse.scheme_chars`). -/
def schemeChar (c : Char) : Bool :=
  isAsciiAlpha c || isAsciiDigit c || c = '+' || c = '-' || c = '.'

/-- The bytes `urlsplit` removes from its input (`_UNSAFE_URL_BYTES_TO_REMOVE`). -/
def unsafeWs (c : Char) : Bool := c = '\t' || c = '\r' || c = '\n'

def removeUnsafe (l : List Char) : List Char := l.filter (fun c => !unsafeWs c)

/-! ## Splitting primitives -/

/-- Split a list at the first occurrence of `c`: Python `s.split(c, 1)`.
Returns `(before, some after)` when `c` occurs, `(l, none)` otherwise. -/
def breakAt (c : Char) : List Char → List Char × Option (List Char)
  | [] => ([], none)
  | x :: xs =>
    if x = c then ([], some xs)
    else
      let r := breakAt c xs
      (x :: r.1, r.2)

/-- Split a list at the last occurrence of `c`:
`some (a, b)` with `l = a ++ c :: b` and `c ∉ b`, or `none` when `c ∉ l`. -/
def splitAtLast (c : Char) (l : List Char) : Option (List Char × List Char) :=
  match breakAt c l.reverse with
  | (_, none) => none
  | (rb, some ra) => some (ra.reverse, rb.reverse)

/-- Python `s.split(c)` (always returns a nonempty list of pieces). -/
def splitOn (c : Char) : List Char → List (List Char)
  | [] => [[]]
  | x :: xs =>
    if x = c then [] :: splitOn c xs
    else
      match splitOn c xs with
      | [] => [[x]]
      | h :: t => (x :: h) :: t

/-- Python `c.join(pieces)`. -/
def joinOn (c : Char) : List (List Char) → List Char
  | [] => []
  | [x] => x
  | x :: y :: t => x ++ c :: joinOn c (y :: t)

/-! ## `urllib.parse.urlsplit` / `urlparse` -/

structure UrlParts where
  scheme : List Char
  netloc : List Char
  path : List Char
  params : List Char
  query : List Char
  fragment : List Char
deriving DecidableEq, Repr

/-- The scheme-extraction step of `urlsplit`: take everything before the
first `:` as the scheme when it is a nonempty run of scheme characters
starting with an ASCII letter (lowercased), else keep the default. -/
def extractScheme (dflt url : List Char) : List Char × List Char :=
  match breakAt ':' url with
  | (bef, some aft) =>
    match bef with
    | [] => (dflt, url)
    | b :: bs =>
      if isAsciiAlpha b && (b :: bs).all schemeChar
      then ((b :: bs).map lowerChar, aft)
      else (dflt, url)
  | (_, none) => (dflt, url)

/-- A character that terminates the netloc in `_splitnetloc`. -/
def netstop (c : Char) : Bool := c = '/' || c = '?' || c = '#'

/-- `_splitnetloc(url, 2)` applied to `url.drop 2`. -/
def splitNetloc (l : List Char) : List Char × List Char :=
  (l.takeWhile (fun c => !netstop c), l.dropWhile (fun c => !netstop c))

structure SplitParts where
  scheme : List Char
  netloc : List Char
  path : List Char
  query : List Char
  fragment : List Char
deriving DecidableEq, Repr

/-- The netloc step of `urlsplit`: consume a leading `//`. -/
def netlocStage (url2 : List Char) : List Char × List Char :=
  if url2.take 2 = ['/', '/'] then splitNetloc (url2.drop 2) else ([], url2)

/-- `if '#' in url: url, fragment = url.split('#', 1)`. -/
def fragStage (url3 : List Char) : List Char × List Char :=
  match breakAt '#' url3 with
  | (bef, some aft) => (bef, aft)
  | (bef, none) => (bef, [])

/-- `if '?' in url: url, query = url.split('?', 1)`. -/
def queryStage (url4 : List Char) : List Char × List Char :=
  match breakAt '?' url4 with
  | (bef, some aft) => (bef, aft)
  | (bef, none) => (bef, [])

/-- `urllib.parse.urlsplit(url, scheme=dflt)` (bracket-host validation and
the NFKC netloc check omitted, see the module docstring). -/
def pyUrlsplit (dflt url : List Char) : SplitParts :=
  let u1 := removeUnsafe url
  let d := removeUnsafe dflt
  let s := extractScheme d u1
  let n := netlocStage s.2
  let fr := fragStage n.2
  let q := queryStage fr.1
  ⟨s.1, n.1, q.1, q.2, fr.2⟩

/-- `urllib.parse._splitparams`. -/
def splitParams (url : List Char) : List Char × List Char :=
  match splitAtLast '/' url with
  | some (a, b) =>
    match breakAt ';' b with
    | (b1, some b2) => (a ++ '/' :: b1, b2)
    | (_, none) => (url, [])
  | none =>
    match breakAt ';' url with
    | (u1, some u2) => (u1, u2)
    | (_, none) => (url, [])

/-- `urllib.parse.urlparse(url, scheme=dflt)`. -/
def pyUrlparse (dflt url : List Char) : UrlParts :=
  let s := pyUrlsplit dflt url
  let pp := splitParams s.path
  ⟨s.scheme, s.netloc, pp.1, pp.2, s.query, s.fragment⟩

/-! ## `urllib.parse.quote` with `safe="/%:@"` -/

def hexDigit (n : Nat) : Char :=
  if n < 10 then Char.ofNat ('0'.toNat + n) else Char.ofNat ('A'.toNat + (n - 10))

/-- Characters `quote(path, safe="/%:@")` leaves unescaped:
the always-safe set plus the `safe` argument of `_enc`. -/
def quoteSafe (c : Char) : Bool :=
  isAsciiAlpha c || isAsciiDigit c ||
  c = '_' || c = '.' || c = '-' || c = '~' ||
  c = '/' || c = '%' || c = ':' || c = '@'

def quoteChar (c : Char) : List Char :=
  if quoteSafe c then [c]
  else ['%', hexDigit (c.toNat / 16), hexDigit (c.toNat % 16)]

def pyQuote : List Char → List Char
  | [] => []
  | c :: cs => quoteChar c ++ pyQuote cs

/-! ## `urllib.parse.urlunsplit` / `urlunparse` -/

def pyUrlunsplit (p : SplitParts) : List Char :=
  let url := p.path
  let url :=
    if p.netloc ≠ [] ∨ (url ≠ [] ∧ url.take 2 = ['/', '/']) then
      let url := if url ≠ [] ∧ url.take 1 ≠ ['/'] then '/' :: url else url
      '/' :: '/' :: (p.netloc ++ url)
    else url
  let url := if p.scheme ≠ [] then p.scheme ++ ':' :: url else url
  let url := if p.query ≠ [] then url ++ '?' :: p.query else url
  if p.fragment ≠ [] then url ++ '#' :: p.fragment else url

def pyUrlunparse (p : UrlParts) : List Char :=
  let url := if p.params ≠ [] then p.path ++ ';' :: p.params else p.path
  pyUrlunsplit ⟨p.scheme, p.netloc, url, p.query, p.fragment⟩

/-! ## `_enc` (sync_webdav.py lines 38-40) -/

def encL (u : List Char) : List Char :=
  let p := pyUrlparse [] u
  pyUrlunparse ⟨p.scheme, p.netloc, pyQuote p.path, p.params, p.query, p.fragment⟩

def _enc (s : String) : String := String.mk (encL s.data)

/-! ## `urllib.parse.urljoin` -/

def uses_relative : List String :=
  ["", "ftp", "http", "gopher", "nntp", "imap", "wais", "file", "https",
   "shttp", "mms", "prospero", "rtsp", "rtspu", "sftp", "svn", "svn+ssh",
   "ws", "wss"]

def uses_netloc : List String :=
  ["", "ftp", "http", "gopher", "nntp", "telnet", "imap", "wais", "file",
   "mms", "https", "shttp", "snews", "prospero", "rtsp", "rtspu", "rsync",
   "svn", "svn+ssh", "sftp", "nfs", "git", "git+ssh", "ws", "wss",
   "itms-services"]

/-- `segments[1:-1] = filter(None, segments[1:-1])`: drop empty segments
from the middle, keeping the first and last element. -/
def filterMiddleAux : List (List Char) → List (List Char)
  | [] => []
  | [y] => [y]
  | y :: rest => if y = [] then filterMiddleAux rest else y :: filterMiddleAux rest

def filterMiddle : List (List Char) → List (List Char)
  | [] => []
  | [x] => [x]
  | x :: rest => x :: filterMiddleAux rest

/-- `urllib.parse.urljoin(base, url)`. -/
def pyUrljoin (base url : String) : String :=
  if base = "" then url
  else if url = "" then base
  else
    let b := pyUrlparse [] base.data
    let t := pyUrlparse b.scheme url.data
    if ¬(t.scheme = b.scheme ∧ String.mk t.scheme ∈ uses_relative) then url
    else if String.mk t.scheme ∈ uses_netloc ∧ t.netloc ≠ [] then
      String.mk (pyUrlunparse t)
    else
      let netloc := if String.mk t.scheme ∈ uses_netloc then b.netloc else t.netloc
      if t.path = [] ∧ t.params = [] then
        let query := if t.query = [] then b.query else t.query
        String.mk (pyUrlunparse ⟨t.scheme, netloc, b.path, b.params, query, t.fragment⟩)
      else
        let base_parts0 := splitOn '/' b.path
        let base_parts :=
          if base_parts0.getLast? = some [] then base_parts0 else base_parts0.dropLast
        let segments :=
          if t.path.take 1 = ['/'] then splitOn '/' t.path
          else filterMiddle (base_parts ++ splitOn '/' t.path)
        let resolved := segments.foldl
          (fun acc seg =>
            if seg = ['.', '.'] then acc.dropLast
            else if seg = ['.'] then acc
            else acc ++ [seg])
          ([] : List (List Char))
        let resolved :=
          if segments.getLast? = some ['.'] ∨ segments.getLast? = some ['.', '.']
          then resolved ++ [[]] else resolved
        let joined := joinOn '/' resolved
        let path := if joined = [] then ['/'] else joined
        String.mk (pyUrlunparse ⟨t.scheme, netloc, path, t.params, t.query, t.fragment⟩)

/-! ## `_abs`, `_is_image`, `strip`, `rstrip` and `os.path.splitext` -/

/-- `_abs` (sync_webdav.py lines 42-48). -/
def _abs (base href : String) : String :=
  if href.data.take 7 = "http://".data ∨ href.data.take 8 = "https://".data then href
  else
    let bp := pyUrlparse [] base.data
    if href.data.take 1 = ['/'] then
      String.mk (bp.scheme ++ ':' :: '/' :: '/' :: (bp.netloc ++ href.data))
    else
      pyUrljoin (if base.data.getLast? = some '/' then base
                 else String.mk (base.data ++ ['/'])) href

def IMAGE_EXTS : List String := [".jpg", ".jpeg", ".png", ".gif", ".webp"]

/-- Python `l.endswith(suf)` on char lists. -/
def listEndsWith (suf l : List Char) : Bool :=
  l.drop (l.length - suf.length) = suf ∧ suf.length ≤ l.length

/-- `_is_image` (sync_webdav.py lines 50-52). -/
def _is_image (u : String) : Bool :=
  let path := (pyUrlparse [] u.data).path.map lowerChar
  IMAGE_EXTS.any (fun e => listEndsWith e.data path)

/-- Python whitespace stripped by `str.strip()` (ASCII portion). -/
def pyWs (c : Char) : Bool :=
  c = ' ' || c = '\t' || c = '\n' || c = '\r' || c = Char.ofNat 11 || c = Char.ofNat 12

/-- Python `s.strip()`. -/
def pyStrip (s : String) : String :=
  String.mk (((s.data.dropWhile pyWs).reverse.dropWhile pyWs).reverse)

/-- Python `s.rstrip("/")`: drop every trailing slash. -/
def rstripSlash (s : String) : String :=
  String.mk ((s.data.reverse.dropWhile (fun c => c = '/')).reverse)

/-- `os.path.splitext(p)[1]`: the extension of the last path segment,
empty when the basename has no dot after a non-dot character. -/
def splitextExt (p : List Char) : List Char :=
  let basename := match splitAtLast '/' p with
    | some (_, b) => b
    | none => p
  match splitAtLast '.' basename with
  | some (stem, after) => if stem.any (fun c => c ≠ '.') then '.' :: after else []
  | none => []

/-- `os.path.splitext(urlparse(u).path)[1].lower()` (sync_webdav.py line 150). -/
def extOf (u : String) : String :=
  String.mk ((splitextExt (pyUrlparse [] u.data).path).map lowerChar)

/-! ## Remote errors and the directory lister -/

/-- Failure modes of `list_dir`: `httpx` transport errors
(the spec's `RemoteUnavailable`) and non-success statuses or unparseable
multistatus bodies (`RemoteProtocolError`). -/
inductive ListErr where
  | remoteUnavailable : ListErr
  | remoteProtocolError : ListErr
deriving DecidableEq, Repr

/-- The HTTP side of `list_dir`, abstracted: each request either fails at
the transport (`error`) or yields a status code; `propfindResult`
additionally yields the hrefs parsed from the body (`none` models an
`ET.fromstring` failure). -/
structure DavClient where
  headStatus : String → Except ListErr Nat
  getStatus : String → Except ListErr Nat
  propfindResult : String → Except ListErr (Nat × Option (List String))

/-- `httpx.Response.raise_for_status`: error on any non-2xx status. -/
def raiseForStatus (s : Nat) : Except ListErr Unit :=
  if 200 ≤ s ∧ s ≤ 299 then .ok () else .error .remoteProtocolError

/-- `list_dir` (sync_webdav.py lines 59-97). -/
def list_dir (c : DavClient) (dir_or_file_url : String) : Except ListErr (List String) := do
  let u := pyStrip dir_or_file_url
  if u = "" then return []
  if _is_image u then
    let s ← c.headStatus (_enc u)
    let s ← if s = 405 then c.getStatus (_enc u) else pure s
    let _ ← raiseForStatus s
    return [u]
  else
    let r ← c.propfindResult (_enc u)
    let _ ← raiseForStatus r.1
    match r.2 with
    | none => .error .remoteProtocolError
    | some hrefs =>
      return hrefs.foldl
        (fun out href =>
          if href = "" then out
          else
            let absu := _abs u href
            if rstripSlash (_enc absu) = rstripSlash (_enc u) then out
            else if _is_image absu then out ++ [absu] else out)
        []

/-! ## Catalog store (ensure_schema tables, as record lists) -/

/-- A `person` row; `aliases` is `alias_json` after `json.loads`
(invalid or non-list JSON is treated as `[]` by both consumers). -/
structure Person where
  id : Nat
  name : String
  aliases : List String
  dav_url : String
  enabled : Bool
deriving DecidableEq, Repr

/-- An `image` row. -/
structure ImageRow where
  id : Nat
  person_id : Nat
  url : String
  ext : String
  bytes : Option Nat
  etag : Option String
  last_modified : Option String
  created_at : Nat
  active : Bool
deriving DecidableEq, Repr

/-- A `person_stats` row. -/
structure StatsRow where
  person_id : Nat
  img_count : Int
  min_id : Option Nat
  max_id : Option Nat
  updated_at : Nat
deriving DecidableEq, Repr

/-- The SQLite database: the three tables plus the AUTOINCREMENT counter
for `image.id` (rows are kept in insertion order, as SQLite returns them
for the queries used here). -/
structure Catalog where
  persons : List Person
  images : List ImageRow
  stats : List StatsRow
  nextImageId : Nat
deriving DecidableEq, Repr

/-- First row matching a person id in `person_stats`. -/
def statLookup (stats : List StatsRow) (pid : Nat) : Option StatsRow :=
  stats.find? (fun s => s.person_id = pid)

/-- `SELECT ... FROM person WHERE name=?` (first matching row). -/
def personLookup (persons : List Person) (name : String) : Option Person :=
  persons.find? (fun p => p.name = name)

/-- SQL `MIN` over a list of ids (`none` = NULL on the empty set). -/
def minNat? (l : List Nat) : Option Nat :=
  l.foldr (fun x acc => match acc with
    | none => some x
    | some y => some (min x y)) none

/-- SQL `MAX` over a list of ids. -/
def maxNat? (l : List Nat) : Option Nat :=
  l.foldr (fun x acc => match acc with
    | none => some x
    | some y => some (max x y)) none

/-! ## upsert_images (sync_webdav.py lines 146-167) -/

/-- `UPDATE image SET active=0 WHERE person_id=?`. -/
def deactRow (pid : Nat) (r : ImageRow) : ImageRow :=
  if r.person_id = pid then { r with active := false } else r

/-- The `DO UPDATE SET active=1, ext=excluded.ext` effect on a row. -/
def setActiveExt (u : String) (r : ImageRow) : ImageRow :=
  { r with active := true, ext := extOf u }

def reactivate (pid : Nat) (u : String) (r : ImageRow) : ImageRow :=
  if r.person_id = pid ∧ r.url = u then setActiveExt u r else r

/-- Is there a row with the `(person_id, url)` key? -/
def hasKey (imgs : List ImageRow) (pid : Nat) (u : String) : Bool :=
  imgs.any (fun r => r.person_id = pid ∧ r.url = u)

/-- A freshly inserted `image` row: `bytes`/`etag`/`last_modified` are not
set by the INSERT, `created_at` takes the CURRENT_TIMESTAMP default. -/
def newRow (pid : Nat) (u : String) (id now : Nat) : ImageRow :=
  ⟨id, pid, u, extOf u, none, none, none, now, true⟩

/-- One `INSERT ... ON CONFLICT(person_id, url) DO UPDATE` statement. -/
def upsertOne (pid now : Nat) (st : Catalog) (u : String) : Catalog :=
  if hasKey st.images pid u then
    { st with images := st.images.map (reactivate pid u) }
  else
    { st with images := st.images ++ [newRow pid u st.nextImageId now],
              nextImageId := st.nextImageId + 1 }

/-- The active rows of a person (`WHERE person_id=? AND active=1`). -/
def activeOf (imgs : List ImageRow) (pid : Nat) : List ImageRow :=
  imgs.filter (fun r => r.person_id = pid ∧ r.active)

/-- The `SELECT ?, COUNT(*), MIN(id), MAX(id) ... WHERE active=1` row fed
into the `person_stats` upsert. -/
def statsFor (imgs : List ImageRow) (pid now : Nat) : StatsRow :=
  let ids := (activeOf imgs pid).map (fun r => r.id)
  ⟨pid, (ids.length : Int), minNat? ids, maxNat? ids, now⟩

/-- `INSERT INTO person_stats ... ON CONFLICT(person_id) DO UPDATE`. -/
def putStats (stats : List StatsRow) (row : StatsRow) : List StatsRow :=
  if stats.any (fun s => s.person_id = row.person_id) then
    stats.map (fun s => if s.person_id = row.person_id then row else s)
  else stats ++ [row]

/-- `upsert_images(conn, person_id, urls)`; `now` is CURRENT_TIMESTAMP. -/
def upsert_images (st : Catalog) (pid : Nat) (urls : List String) (now : Nat) : Catalog :=
  let st1 : Catalog := { st with images := st.images.map (deactRow pid) }
  let st2 := urls.foldl (upsertOne pid now) st1
  { st2 with stats := putStats st2.stats (statsFor st2.images pid now) }

/-! ## sync_person (sync_webdav.py lines 169-178) -/

inductive SyncErr where
  | personNotFound : SyncErr
  | listErr : ListErr → SyncErr
deriving DecidableEq, Repr

/-- `sync_person(conn, name)`, with the directory listing abstracted as a
function of the person's `dav_url` (`list_dir client` in `sync_all`).
Returns the connection's state after the call together with the raised
error, if any: the listing runs before any write, so a failure leaves the
state untouched, and `upsert_images` commits the deactivate + reactivate +
aggregate sequence as one unit. -/
def sync_person (listing : String → Except ListErr (List String)) (now : Nat)
    (st : Catalog) (name : String) : Catalog × Option SyncErr :=
  match personLookup st.persons name with
  | none => (st, some .personNotFound)
  | some p =>
    if ¬p.enabled then (st, none)
    else
      match listing p.dav_url with
      | .error e => (st, some (.listErr e))
      | .ok urls => (upsert_images st p.id urls now, none)

/-! ## Sampler and resolver (picmap/__init__.py) -/

/-- Insertion sort by ascending `id` (`ORDER BY id`). -/
def insertById (r : ImageRow) : List ImageRow → List ImageRow
  | [] => [r]
  | x :: xs => if r.id ≤ x.id then r :: x :: xs else x :: insertById r xs

def sortById (l : List ImageRow) : List ImageRow := l.foldr insertById []

/-- `rand_image_rowid(conn, person_id)` (picmap/__init__.py lines 125-137),
with the uniform draw `random.randrange(n)` passed in as `k`:
`SELECT id, url ... WHERE person_id=? AND active=1 ORDER BY id LIMIT 1 OFFSET k`. -/
def rand_image_rowid (st : Catalog) (person_id k : Nat) : Option (Nat × String) :=
  match statLookup st.stats person_id with
  | none => none
  | some stat =>
    if stat.img_count ≤ 0 then none
    else ((sortById (activeOf st.images person_id)).get? k).map (fun r => (r.id, r.url))

/-- `normalize` (picmap/__init__.py line 27). -/
def normalize (text : String) : String := pyStrip text

/-- `lookup_db(name)` (picmap/__init__.py lines 73-104): exact enabled
name match first, then the first enabled row whose alias list contains
the key. -/
def lookup_db (persons : List Person) (name : String) : Option (String × String) :=
  match persons.find? (fun p => p.name = normalize name ∧ p.enabled) with
  | some p => some ("url", p.dav_url)
  | none =>
    match (persons.filter (fun p => p.enabled)).find? (fun p => normalize name ∈ p.aliases) with
    | some p => some ("url", p.dav_url)
    | none => none

/-- `find_person(conn, key)` (picmap/__init__.py lines 109-123). -/
def find_person (persons : List Person) (key : String) : Option (Nat × String) :=
  match persons.find? (fun p => p.name = key ∧ p.enabled) with
  | some p => some (p.id, p.name)
  | none =>
    match persons.find? (fun p => p.enabled ∧ key ∈ p.aliases) with
    | some p => some (p.id, p.name)
    | none => none

/-! ## Lemmas about the `person_stats` upsert -/

theorem find?_put (stats : List StatsRow) (row : StatsRow) :
    (stats.map (fun s => if s.person_id = row.person_id then row else s)).find?
        (fun s => s.person_id = row.person_id)
      = if stats.any (fun s => s.person_id = row.person_id) then some row else none := by
  induction stats with
  | nil => rfl
  | cons s t ih =>
    by_cases h : s.person_id = row.person_id
    · simp [List.find?, h]
    · simp only [List.map_cons, List.find?, if_neg h, List.any_cons]
      simp [h, ih]

theorem statLookup_putStats (stats : List StatsRow) (row : StatsRow) :
    statLookup (putStats stats row) row.person_id = some row := by
  unfold statLookup putStats
  by_cases h : stats.any (fun s => s.person_id = row.person_id)
  · rw [if_pos h, find?_put, if_pos h]
  · rw [if_neg h, List.find?_append]
    simp only [List.any_eq_true, decide_eq_true_eq, not_exists, not_and] at h
    have hnone : stats.find? (fun s => s.person_id = row.person_id) = none := by
      rw [List.find?_eq_none]
      intro x hx
      simpa using h x hx
    simp [hnone, List.find?]

theorem find?_put_other (t : List StatsRow) (row : StatsRow) (pid : Nat)
    (h : pid ≠ row.person_id) :
    (t.map (fun s => if s.person_id = row.person_id then row else s)).find?
        (fun s => s.person_id = pid)
      = t.find? (fun s => s.person_id = pid) := by
  induction t with
  | nil => rfl
  | cons s t ih =>
    by_cases hs : s.person_id = row.person_id
    · have h1 : ¬(row.person_id = pid) := fun hc => h hc.symm
      have h2 : ¬(s.person_id = pid) := by rw [hs]; exact h1
      simp [List.find?, hs, h1, h2, ih]
    · simp only [List.map_cons, if_neg hs, List.find?]
      cases hp : decide (s.person_id = pid) <;> simp [ih]

theorem statLookup_putStats_other (stats : List StatsRow) (row : StatsRow) (pid : Nat)
    (h : pid ≠ row.person_id) :
    statLookup (putStats stats row) pid = statLookup stats pid := by
  unfold statLookup putStats
  by_cases ha : stats.any (fun s => s.person_id = row.person_id)
  · rw [if_pos ha]
    exact find?_put_other stats row pid h
  · rw [if_neg ha, List.find?_append]
    have h1 : ¬(row.person_id = pid) := fun hc => h hc.symm
    have hrow : List.find? (fun s => s.person_id = pid) [row] = none := by
      simp [List.find?, h1]
    cases hf : stats.find? (fun s => s.person_id = pid) <;> simp [hf, hrow]

/-! ## C1: aggregate invariant after a successful sync -/

/-- C1: immediately after a successful `sync_person` for an enabled entity,
the entity's `person_stats` row holds exactly the count of its active image
rows, and the minimum and maximum id among them (NULL on the empty set). -/
theorem sync_person_stats_invariant
    (listing : String → Except ListErr (List String)) (now : Nat) (st : Catalog)
    (name : String) (p : Person) (urls : List String)
    (hp : personLookup st.persons name = some p) (hen : p.enabled = true)
    (hl : listing p.dav_url = .ok urls) :
    statLookup (sync_person listing now st name).1.stats p.id =
      some ⟨p.id,
        (((activeOf (sync_person listing now st name).1.images p.id).map (fun r => r.id)).length : Int),
        minNat? ((activeOf (sync_person listing now st name).1.images p.id).map (fun r => r.id)),
        maxNat? ((activeOf (sync_person listing now st name).1.images p.id).map (fun r => r.id)),
        now⟩ := by
  unfold sync_person
  rw [hp]
  simp only [hen, Bool.not_true, Bool.false_eq_true, if_false]
  rw [hl]
  exact statLookup_putStats
    (((urls.foldl (upsertOne p.id now) { st with images := st.images.map (deactRow p.id) })).stats)
    (statsFor ((urls.foldl (upsertOne p.id now) { st with images := st.images.map (deactRow p.id) })).images p.id now)

def personW : Person := ⟨1, "A", ["a1", "a2"], "http://h/d/", true⟩

def catalogW : Catalog := ⟨[personW], [], [], 1⟩

def listingW : String → Except ListErr (List String) := fun _ => .ok ["http://h/d/x.jpg"]

theorem sync_person_stats_invariant_witness :
    statLookup (sync_person listingW 7 catalogW "A").1.stats 1 =
      some ⟨1, 1, some 1, some 1, 7⟩ := by
  have h := sync_person_stats_invariant listingW 7 catalogW "A" personW
    ["http://h/d/x.jpg"] rfl rfl rfl
  exact h.trans (by decide)

/-! ## C2: failures leave the catalog untouched -/

/-- C2: whenever `sync_person` reports an error the catalog state is
exactly as before the call, and a listing failure
(`RemoteUnavailable`/`RemoteProtocolError`) is propagated to the caller:
the deactivate + reactivate + aggregate sequence runs only after a
successful listing. -/
theorem sync_person_failure_atomic :
    (∀ listing now (st : Catalog) name e,
        (sync_person listing now st name).2 = some e →
        (sync_person listing now st name).1 = st) ∧
    (∀ listing now (st : Catalog) name p e,
        personLookup st.persons name = some p → p.enabled = true →
        listing p.dav_url = .error e →
        sync_person listing now st name = (st, some (.listErr e))) := by
  constructor
  · intro listing now st name e h
    unfold sync_person at h ⊢
    cases hp : personLookup st.persons name with
    | none => rfl
    | some p =>
      rw [hp] at h
      by_cases hen : p.enabled
      · simp only [hen] at h ⊢
        cases hl : listing p.dav_url with
        | error e2 => rfl
        | ok urls => rw [hl] at h; simp at h
      · simp [hen]
  · intro listing now st name p e hp hen hl
    unfold sync_person
    rw [hp]
    simp [hen, hl]

/-- The prior catalog of the spec's test scenario: one entity with three
active resources and `img_count = 3`. -/
def catalog3 : Catalog :=
  ⟨[personW],
   [⟨1, 1, "http://h/d/a.jpg", ".jpg", none, none, none, 5, true⟩,
    ⟨2, 1, "http://h/d/b.jpg", ".jpg", none, none, none, 5, true⟩,
    ⟨3, 1, "http://h/d/c.jpg", ".jpg", none, none, none, 5, true⟩],
   [⟨1, 3, some 1, some 3, 5⟩], 4⟩

def failListing : String → Except ListErr (List String) :=
  fun _ => .error .remoteUnavailable

theorem sync_person_failure_atomic_witness :
    (sync_person failListing 9 catalog3 "A").1 = catalog3 ∧
    sync_person failListing 9 catalog3 "A" = (catalog3, some (.listErr .remoteUnavailable)) := by
  refine ⟨?_, ?_⟩
  · exact sync_person_failure_atomic.1 failListing 9 catalog3 "A"
      (.listErr .remoteUnavailable) (by decide)
  · exact sync_person_failure_atomic.2 failListing 9 catalog3 "A" personW
      .remoteUnavailable rfl rfl rfl

/-! ## C5: the sampler -/

theorem insertById_perm (r : ImageRow) (l : List ImageRow) :
    (insertById r l).Perm (r :: l) := by
  induction l with
  | nil => exact List.Perm.refl _
  | cons x xs ih =>
    unfold insertById
    by_cases h : r.id ≤ x.id
    · rw [if_pos h]
    · rw [if_neg h]
      exact (List.Perm.cons x ih).trans (List.Perm.swap r x xs)

theorem sortById_perm (l : List ImageRow) : (sortById l).Perm l := by
  induction l with
  | nil => exact List.Perm.refl _
  | cons x xs ih =>
    have : sortById (x :: xs) = insertById x (sortById xs) := rfl
    rw [this]
    exact (insertById_perm x (sortById xs)).trans (List.Perm.cons x ih)

theorem insertById_sorted (r : ImageRow) (l : List ImageRow)
    (h : l.Pairwise (fun a b => a.id ≤ b.id)) :
    (insertById r l).Pairwise (fun a b => a.id ≤ b.id) := by
  induction l with
  | nil => simp [insertById]
  | cons x xs ih =>
    rcases List.pairwise_cons.mp h with ⟨hx, hxs⟩
    unfold insertById
    by_cases hr : r.id ≤ x.id
    · rw [if_pos hr]
      refine List.pairwise_cons.mpr ⟨?_, h⟩
      intro y hy
      rcases List.mem_cons.mp hy with rfl | hy
      · exact hr
      · exact le_trans hr (hx y hy)
    · rw [if_neg hr]
      refine List.pairwise_cons.mpr ⟨?_, ih hxs⟩
      intro y hy
      rcases List.mem_cons.mp ((insertById_perm r xs).mem_iff.mp hy) with rfl | hy
      · exact le_of_not_le hr
      · exact hx y hy

theorem sortById_sorted (l : List ImageRow) :
    (sortById l).Pairwise (fun a b => a.id ≤ b.id) := by
  induction l with
  | nil => simp [sortById]
  | cons x xs ih => exact insertById_sorted x (sortById xs) ih

theorem range_map_get? {α : Type _} (l : List α) :
    (List.range l.length).map l.get? = l.map some := by
  induction l with
  | nil => rfl
  | cons x xs ih =>
    rw [List.length_cons, List.range_succ_eq_map, List.map_cons, List.map_map]
    rw [show ((x :: xs).get? ∘ Nat.succ) = xs.get? from rfl, ih]
    rfl

/-- C5: `rand_image_rowid` returns an absent result when the entity has no
aggregate row or a non-positive `img_count`; otherwise, for each draw
`k < img_count`, it returns the active row of the entity at offset `k` in
ascending-id order, so over the uniform draw every active resource is
produced exactly once (probability `1/img_count` when the aggregate count
matches the active set). -/
theorem rand_image_rowid_spec :
    (∀ (st : Catalog) (pid k : Nat), statLookup st.stats pid = none →
        rand_image_rowid st pid k = none) ∧
    (∀ (st : Catalog) (pid k : Nat) (stat : StatsRow),
        statLookup st.stats pid = some stat → stat.img_count ≤ 0 →
        rand_image_rowid st pid k = none) ∧
    (∀ (st : Catalog) (pid : Nat) (stat : StatsRow),
        statLookup st.stats pid = some stat →
        stat.img_count = ((activeOf st.images pid).length : Int) →
        0 < (activeOf st.images pid).length →
        (List.range (activeOf st.images pid).length).map (rand_image_rowid st pid)
            = (sortById (activeOf st.images pid)).map (fun r => some (r.id, r.url)) ∧
        (sortById (activeOf st.images pid)).Perm (activeOf st.images pid) ∧
        (sortById (activeOf st.images pid)).Pairwise (fun a b => a.id ≤ b.id)) := by
  refine ⟨?_, ?_, ?_⟩
  · intro st pid k h
    unfold rand_image_rowid
    rw [h]
  · intro st pid k stat h hle
    unfold rand_image_rowid
    rw [h]
    simp [hle]
  · intro st pid stat hfind hcount hpos
    have hperm := sortById_perm (activeOf st.images pid)
    refine ⟨?_, hperm, sortById_sorted _⟩
    have hstep : ∀ k, rand_image_rowid st pid k
        = ((sortById (activeOf st.images pid)).get? k).map (fun r => (r.id, r.url)) := by
      intro k
      unfold rand_image_rowid
      rw [hfind]
      have hn : ¬(stat.img_count ≤ 0) := by
        rw [hcount]
        push_neg
        exact_mod_cast hpos
      simp [hn]
    have hlen : (activeOf st.images pid).length = (sortById (activeOf st.images pid)).length :=
      hperm.length_eq.symm
    calc (List.range (activeOf st.images pid).length).map (rand_image_rowid st pid)
        = (List.range (sortById (activeOf st.images pid)).length).map
            (fun k => ((sortById (activeOf st.images pid)).get? k).map (fun r => (r.id, r.url))) := by
          rw [← hlen]
          exact List.map_congr_left (fun k _ => hstep k)
      _ = ((List.range (sortById (activeOf st.images pid)).length).map
            (sortById (activeOf st.images pid)).get?).map (Option.map (fun r => (r.id, r.url))) := by
          rw [List.map_map]
          rfl
      _ = ((sortById (activeOf st.images pid)).map some).map
            (Option.map (fun r => (r.id, r.url))) := by rw [range_map_get?]
      _ = (sortById (activeOf st.images pid)).map (fun r => some (r.id, r.url)) := by
          rw [List.map_map]
          rfl

theorem rand_image_rowid_spec_witness :
    (List.range 3).map (rand_image_rowid catalog3 1)
        = [some (1, "http://h/d/a.jpg"), some (2, "http://h/d/b.jpg"),
           some (3, "http://h/d/c.jpg")] ∧
    rand_image_rowid catalog3 99 0 = none := by
  refine ⟨?_, rand_image_rowid_spec.1 catalog3 99 0 (by decide)⟩
  have h := (rand_image_rowid_spec.2.2 catalog3 1 ⟨1, 3, some 1, some 3, 5⟩
    (by decide) (by decide) (by decide)).1
  exact h.trans (by decide)

/-! ## C8: name / alias resolution -/

/-- Modelled on the spec's `resolveByNameOrAlias` wording: the first
enabled entity whose name equals the key exactly, else the first enabled
entity whose alias set contains the key as an exact member. -/
def resolveByNameOrAlias (persons : List Person) (key : String) : Option Person :=
  match persons.find? (fun p => p.enabled ∧ p.name = key) with
  | some p => some p
  | none => persons.find? (fun p => p.enabled ∧ key ∈ p.aliases)

theorem find?_ext {α : Type _} (l : List α) (p q : α → Bool) (h : ∀ x, p x = q x) :
    l.find? p = l.find? q := by
  rw [show p = q from funext h]

theorem find?_filter {α : Type _} (l : List α) (p q : α → Bool) :
    (l.filter p).find? q = l.find? (fun x => p x && q x) := by
  induction l with
  | nil => rfl
  | cons x xs ih =>
    by_cases hp : p x
    · rw [List.filter_cons_of_pos hp]
      by_cases hq : q x
      · simp [List.find?, hp, hq]
      · simp only [List.find?, hq, hp, Bool.true_and]
        exact ih
    · rw [List.filter_cons_of_neg hp]
      simp only [List.find?, Bool.and_eq_true]
      have : (p x && q x) = false := by simp [hp]
      simp only [this]
      exact ih

/-- C8: the resolution path trims surrounding whitespace, matches the exact
name among enabled entities first, falls back to exact alias membership of
the first enabled entity, involves no disabled entity and no fuzzy
matching, and both `lookup_db` and `find_person` implement exactly this. -/
theorem name_alias_resolution_spec :
    (∀ persons text, lookup_db persons text
        = (resolveByNameOrAlias persons (pyStrip text)).map (fun p => ("url", p.dav_url))) ∧
    (∀ persons key, find_person persons key
        = (resolveByNameOrAlias persons key).map (fun p => (p.id, p.name))) ∧
    (∀ persons key p, resolveByNameOrAlias persons key = some p →
        p ∈ persons ∧ p.enabled = true ∧ (p.name = key ∨ key ∈ p.aliases)) ∧
    (∀ persons key, (resolveByNameOrAlias persons key).isSome = true ↔
        ∃ p ∈ persons, p.enabled = true ∧ (p.name = key ∨ key ∈ p.aliases)) := by
  have hname : ∀ key, ∀ p : Person,
      (decide (p.name = key ∧ p.enabled = true)) = (decide (p.enabled = true ∧ p.name = key)) := by
    intro key p
    exact decide_eq_decide.mpr and_comm
  have halias : ∀ key, ∀ p : Person,
      (p.enabled && decide (key ∈ p.aliases)) = (decide (p.enabled = true ∧ key ∈ p.aliases)) := by
    intro key p
    cases he : p.enabled <;> simp [he]
  refine ⟨?_, ?_, ?_, ?_⟩
  · intro persons text
    unfold lookup_db resolveByNameOrAlias normalize
    rw [find?_ext persons _ _ (hname (pyStrip text))]
    cases hn : persons.find? (fun p => p.enabled ∧ p.name = pyStrip text) with
    | some p => rfl
    | none =>
      rw [find?_filter, find?_ext persons _ _ (halias (pyStrip text))]
      cases persons.find? (fun p => p.enabled = true ∧ pyStrip text ∈ p.aliases) <;> rfl
  · intro persons key
    unfold find_person resolveByNameOrAlias
    rw [find?_ext persons _ _ (hname key)]
    cases hn : persons.find? (fun p => p.enabled ∧ p.name = key) with
    | some p => rfl
    | none =>
      cases persons.find? (fun p => p.enabled = true ∧ key ∈ p.aliases) <;> rfl
  · intro persons key p hres
    unfold resolveByNameOrAlias at hres
    cases hn : persons.find? (fun p => p.enabled ∧ p.name = key) with
    | some q =>
      rw [hn] at hres
      cases hres
      have hmem := List.mem_of_find?_eq_some hn
      have hpred := List.find?_some hn
      simp only [decide_eq_true_eq] at hpred
      exact ⟨hmem, hpred.1, Or.inl hpred.2⟩
    | none =>
      rw [hn] at hres
      have hmem := List.mem_of_find?_eq_some hres
      have hpred := List.find?_some hres
      simp only [decide_eq_true_eq] at hpred
      exact ⟨hmem, hpred.1, Or.inr hpred.2⟩
  · intro persons key
    constructor
    · intro hs
      cases hres : resolveByNameOrAlias persons key with
      | none => rw [hres] at hs; simp at hs
      | some p =>
        have h3 : p ∈ persons ∧ p.enabled = true ∧ (p.name = key ∨ key ∈ p.aliases) := by
          unfold resolveByNameOrAlias at hres
          cases hn : persons.find? (fun p => p.enabled ∧ p.name = key) with
          | some q =>
            rw [hn] at hres
            cases hres
            have hmem := List.mem_of_find?_eq_some hn
            have hpred := List.find?_some hn
            simp only [decide_eq_true_eq] at hpred
            exact ⟨hmem, hpred.1, Or.inl hpred.2⟩
          | none =>
            rw [hn] at hres
            have hmem := List.mem_of_find?_eq_some hres
            have hpred := List.find?_some hres
            simp only [decide_eq_true_eq] at hpred
            exact ⟨hmem, hpred.1, Or.inr hpred.2⟩
        exact ⟨p, h3.1, h3.2⟩
    · rintro ⟨p, hmem, hen, hkey⟩
      unfold resolveByNameOrAlias
      cases hn : persons.find? (fun p => p.enabled ∧ p.name = key) with
      | some q => simp
      | none =>
        rcases hkey with hkey | hkey
        · exfalso
          have hall := List.find?_eq_none.mp hn p hmem
          simp only [decide_eq_true_eq] at hall
          exact hall ⟨hen, hkey⟩
        · show (persons.find? (fun p => p.enabled ∧ key ∈ p.aliases)).isSome = true
          rw [List.find?_isSome]
          exact ⟨p, hmem, by simp [hen, hkey]⟩

def demoPersons : List Person := [personW, ⟨2, "B", ["b1"], "http://h/e/", false⟩]

theorem name_alias_resolution_spec_witness :
    lookup_db demoPersons " a1 " = some ("url", "http://h/d/") ∧
    lookup_db demoPersons "a2" = some ("url", "http://h/d/") ∧
    lookup_db demoPersons "A" = some ("url", "http://h/d/") ∧
    lookup_db demoPersons "a3" = none ∧
    lookup_db demoPersons "b1" = none ∧
    find_person demoPersons "a1" = some (1, "A") := by
  have h := name_alias_resolution_spec.1
  have h2 := name_alias_resolution_spec.2.1
  refine ⟨(h demoPersons " a1 ").trans (by decide), (h demoPersons "a2").trans (by decide),
    (h demoPersons "A").trans (by decide), (h demoPersons "a3").trans (by decide),
    (h demoPersons "b1").trans (by decide), (h2 demoPersons "a1").trans (by decide)⟩

/-! ## C7: the single-file branch of the lister -/

/-- C7 (amended): for a location URL whose stripped form has an extension
in the image allow-list, `list_dir` probes reachability with a HEAD
request on the percent-encoded URL, falls back to a ranged GET on
HTTP 405, and on success returns a one-element list containing the
stripped original URL — not its percent-encoded form (the encoding
is applied to the probe request only). -/
theorem list_dir_single_file_spec (c : DavClient) (u : String) (s : Nat)
    (hne : pyStrip u ≠ "") (himg : _is_image (pyStrip u) = true)
    (h2 : 200 ≤ s) (h3 : s ≤ 299) :
    (c.headStatus (_enc (pyStrip u)) = .ok s → list_dir c u = .ok [pyStrip u]) ∧
    (c.headStatus (_enc (pyStrip u)) = .ok 405 → c.getStatus (_enc (pyStrip u)) = .ok s →
        list_dir c u = .ok [pyStrip u]) := by
  have h405 : s ≠ 405 := by omega
  constructor
  · intro hh
    unfold list_dir
    simp [hne, himg, hh, h405, raiseForStatus, h2, h3, Bind.bind, Except.bind, Pure.pure,
      Except.pure]
  · intro hh hg
    unfold list_dir
    simp [hne, himg, hh, hg, raiseForStatus, h2, h3, Bind.bind, Except.bind, Pure.pure,
      Except.pure]

def okClient : DavClient :=
  ⟨fun _ => .ok 200, fun _ => .ok 200, fun _ => .ok (207, some [])⟩

def okClient405 : DavClient :=
  ⟨fun _ => .ok 405, fun _ => .ok 206, fun _ => .ok (207, some [])⟩

theorem list_dir_single_file_spec_witness :
    list_dir okClient "  http://h/x.jpg " = .ok ["http://h/x.jpg"] ∧
    list_dir okClient405 "http://h/y.png" = .ok ["http://h/y.png"] := by
  refine ⟨?_, ?_⟩
  · exact (list_dir_single_file_spec okClient "  http://h/x.jpg " 200
      (by decide) (by decide) (by decide) (by decide)).1 rfl
  · exact (list_dir_single_file_spec okClient405 "http://h/y.png" 206
      (by decide) (by decide) (by decide) (by decide)).2 rfl rfl

/-- C7, counterexample to the claim as stated: for a URL whose path needs
percent-encoding, the returned element is the raw (unencoded) URL, not the
normalized one the claim promises. -/
theorem list_dir_single_file_unencoded :
    list_dir okClient "http://h/a b.jpg" = .ok ["http://h/a b.jpg"] ∧
    _enc "http://h/a b.jpg" = "http://h/a%20b.jpg" ∧
    ("http://h/a b.jpg" : String) ≠ ("http://h/a%20b.jpg" : String) := by
  exact ⟨rfl, rfl, by decide⟩

/-! ## Structure of `upsert_images`: every row is either an in-place
update of a pre-existing row (touching only `active`/`ext`) or a fresh
insert appended at the end. -/

/-- The combined effect of the reactivation statements for `urls` on one
pre-existing row. -/
def reactivateAny (pid : Nat) (urls : List String) (r : ImageRow) : ImageRow :=
  if r.person_id = pid ∧ r.url ∈ urls then setActiveExt r.url r else r

/-- The combined effect of one whole sync pass (deactivate-all then
reactivate the listed urls) on one pre-existing row. -/
def syncedRow (pid : Nat) (urls : List String) (r : ImageRow) : ImageRow :=
  if r.person_id = pid then
    (if r.url ∈ urls then setActiveExt r.url r else { r with active := false })
  else r

theorem reactivateAny_reactivate (pid : Nat) (u : String) (rest : List String) (r : ImageRow) :
    reactivateAny pid rest (reactivate pid u r) = reactivateAny pid (u :: rest) r := by
  unfold reactivate reactivateAny setActiveExt
  by_cases hp : r.person_id = pid
  · by_cases hu : r.url = u
    · subst hu
      by_cases h2 : r.url ∈ rest
      · simp [hp, h2, List.mem_cons]
      · simp [hp, h2, List.mem_cons]
    · by_cases h2 : r.url ∈ rest
      · simp [hp, hu, h2, List.mem_cons]
      · simp [hp, hu, h2, List.mem_cons]
  · simp [hp]

theorem reactivateAny_newRow (pid now id : Nat) (u : String) (rest : List String) :
    reactivateAny pid rest (newRow pid u id now) = newRow pid u id now := by
  unfold reactivateAny newRow setActiveExt
  split_ifs <;> rfl

theorem syncedRow_eq (pid : Nat) (urls : List String) (r : ImageRow) :
    reactivateAny pid urls (deactRow pid r) = syncedRow pid urls r := by
  unfold reactivateAny deactRow syncedRow setActiveExt
  by_cases hp : r.person_id = pid
  · by_cases hu : r.url ∈ urls <;> simp [hp, hu]
  · simp [hp]

theorem foldl_upsertOne_shape (pid now : Nat) :
    ∀ (urls : List String) (st : Catalog), ∃ t,
      (urls.foldl (upsertOne pid now) st).images = st.images.map (reactivateAny pid urls) ++ t ∧
      (∀ r ∈ t, r.person_id = pid ∧ r.url ∈ urls ∧ r.active = true ∧ r.ext = extOf r.url ∧
        r.created_at = now ∧ r.bytes = none ∧ r.etag = none ∧ r.last_modified = none) := by
  intro urls
  induction urls with
  | nil =>
    intro st
    refine ⟨[], ?_, by simp⟩
    have hid : st.images.map (reactivateAny pid []) = st.images.map id :=
      List.map_congr_left (fun r _ => by simp [reactivateAny])
    show st.images = st.images.map (reactivateAny pid []) ++ []
    rw [List.append_nil, hid, List.map_id]
  | cons u rest ih =>
    intro st
    rw [List.foldl_cons]
    by_cases hk : hasKey st.images pid u
    · have hstep : upsertOne pid now st u
          = { st with images := st.images.map (reactivate pid u) } := by
        unfold upsertOne
        rw [if_pos hk]
      rw [hstep]
      rcases ih { st with images := st.images.map (reactivate pid u) } with ⟨t, himg, hfacts⟩
      refine ⟨t, ?_, fun r hr => ?_⟩
      · rw [himg]
        show (st.images.map (reactivate pid u)).map (reactivateAny pid rest) ++ t = _
        rw [List.map_map]
        congr 1
        exact List.map_congr_left (fun r _ => reactivateAny_reactivate pid u rest r)
      · rcases hfacts r hr with ⟨f1, f2, f3, f4, f5, f6, f7, f8⟩
        exact ⟨f1, List.mem_cons_of_mem u f2, f3, f4, f5, f6, f7, f8⟩
    · have hstep : upsertOne pid now st u
          = { st with images := st.images ++ [newRow pid u st.nextImageId now],
                      nextImageId := st.nextImageId + 1 } := by
        unfold upsertOne
        rw [if_neg hk]
      rw [hstep]
      rcases ih { st with images := st.images ++ [newRow pid u st.nextImageId now],
                          nextImageId := st.nextImageId + 1 } with ⟨t, himg, hfacts⟩
      refine ⟨reactivateAny pid rest (newRow pid u st.nextImageId now) :: t, ?_, ?_⟩
      · rw [himg]
        show (st.images ++ [newRow pid u st.nextImageId now]).map (reactivateAny pid rest) ++ t = _
        rw [List.map_append]
        have hcong : st.images.map (reactivateAny pid rest)
            = st.images.map (reactivateAny pid (u :: rest)) := by
          apply List.map_congr_left
          intro r hr
          have hnk : ¬(r.person_id = pid ∧ r.url = u) := by
            intro hc
            apply hk
            unfold hasKey
            rw [List.any_eq_true]
            exact ⟨r, hr, by simp [hc.1, hc.2]⟩
          unfold reactivateAny
          by_cases hp : r.person_id = pid
          · have hu : ¬(r.url = u) := fun hc => hnk ⟨hp, hc⟩
            simp [hp, List.mem_cons, hu]
          · simp [hp]
        rw [hcong, List.append_assoc]
        rfl
      · intro r hr
        rcases List.mem_cons.mp hr with hr | hr
        · rw [hr, reactivateAny_newRow]
          exact ⟨rfl, List.mem_cons_self u rest, rfl, rfl, rfl, rfl, rfl, rfl⟩
        · rcases hfacts r hr with ⟨f1, f2, f3, f4, f5, f6, f7, f8⟩
          exact ⟨f1, List.mem_cons_of_mem u f2, f3, f4, f5, f6, f7, f8⟩

theorem upsert_images_shape (st : Catalog) (pid : Nat) (urls : List String) (now : Nat) :
    ∃ t, (upsert_images st pid urls now).images = st.images.map (syncedRow pid urls) ++ t ∧
      (∀ r ∈ t, r.person_id = pid ∧ r.url ∈ urls ∧ r.active = true ∧ r.ext = extOf r.url ∧
        r.created_at = now ∧ r.bytes = none ∧ r.etag = none ∧ r.last_modified = none) := by
  unfold upsert_images
  rcases foldl_upsertOne_shape pid now urls { st with images := st.images.map (deactRow pid) }
    with ⟨t, himg, hf⟩
  refine ⟨t, ?_, hf⟩
  show (urls.foldl (upsertOne pid now) _).images = _
  rw [himg]
  show (st.images.map (deactRow pid)).map (reactivateAny pid urls) ++ t = _
  rw [List.map_map]
  congr 1
  exact List.map_congr_left (fun r _ => syncedRow_eq pid urls r)

theorem reactivate_fields (pid : Nat) (u : String) (r : ImageRow) :
    (reactivate pid u r).person_id = r.person_id ∧ (reactivate pid u r).url = r.url := by
  unfold reactivate setActiveExt
  split_ifs <;> simp

theorem deactRow_fields (pid : Nat) (r : ImageRow) :
    (deactRow pid r).person_id = r.person_id ∧ (deactRow pid r).url = r.url := by
  unfold deactRow
  split_ifs <;> simp

theorem hasKey_map_pres (l : List ImageRow) (pid : Nat) (u : String) (f : ImageRow → ImageRow)
    (hf : ∀ r, (f r).person_id = r.person_id ∧ (f r).url = r.url) :
    hasKey (l.map f) pid u = hasKey l pid u := by
  unfold hasKey
  rw [List.any_map]
  congr 1
  funext r
  exact decide_eq_decide.mpr (by rw [(hf r).1, (hf r).2])

theorem upsertOne_hasKey_self (st : Catalog) (pid now : Nat) (u : String) :
    hasKey (upsertOne pid now st u).images pid u = true := by
  unfold upsertOne
  by_cases hk : hasKey st.images pid u
  · rw [if_pos hk]
    show hasKey (st.images.map (reactivate pid u)) pid u = true
    rw [hasKey_map_pres _ _ _ _ (reactivate_fields pid u)]
    exact hk
  · rw [if_neg hk]
    show hasKey (st.images ++ [newRow pid u st.nextImageId now]) pid u = true
    unfold hasKey
    rw [List.any_append]
    apply Bool.or_eq_true_iff.mpr
    right
    simp [newRow]

theorem upsertOne_hasKey_mono (st : Catalog) (pid now : Nat) (u v : String)
    (h : hasKey st.images pid u = true) :
    hasKey (upsertOne pid now st v).images pid u = true := by
  unfold upsertOne
  by_cases hk : hasKey st.images pid v
  · rw [if_pos hk]
    show hasKey (st.images.map (reactivate pid v)) pid u = true
    rw [hasKey_map_pres _ _ _ _ (reactivate_fields pid v)]
    exact h
  · rw [if_neg hk]
    show hasKey (st.images ++ [newRow pid v st.nextImageId now]) pid u = true
    unfold hasKey at h ⊢
    rw [List.any_append, h]
    rfl

theorem foldl_upsertOne_hasKey (pid now : Nat) :
    ∀ (urls : List String) (st : Catalog) (u : String),
      (u ∈ urls ∨ hasKey st.images pid u = true) →
      hasKey (urls.foldl (upsertOne pid now) st).images pid u = true := by
  intro urls
  induction urls with
  | nil =>
    intro st u h
    rcases h with h | h
    · exact absurd h (List.not_mem_nil u)
    · exact h
  | cons v rest ih =>
    intro st u h
    rw [List.foldl_cons]
    apply ih
    rcases h with h | h
    · rcases List.mem_cons.mp h with rfl | h
      · right
        exact upsertOne_hasKey_self st pid now u
      · left
        exact h
    · right
      exact upsertOne_hasKey_mono st pid now u v h

theorem upsert_images_hasKey (st : Catalog) (pid : Nat) (urls : List String) (now : Nat)
    (u : String) (hu : u ∈ urls) :
    hasKey (upsert_images st pid urls now).images pid u = true := by
  unfold upsert_images
  show hasKey (urls.foldl (upsertOne pid now) _).images pid u = true
  exact foldl_upsertOne_hasKey pid now urls _ u (Or.inl hu)

/-- Active/ext characterization of the rows of a synced person:
a row of `pid` is active exactly when its url was listed, and a listed row
carries the recomputed extension. -/
theorem upsert_images_active (st : Catalog) (pid : Nat) (urls : List String) (now : Nat) :
    ∀ r ∈ (upsert_images st pid urls now).images, r.person_id = pid →
      ((r.active = true ↔ r.url ∈ urls) ∧ (r.url ∈ urls → r.ext = extOf r.url)) := by
  rcases upsert_images_shape st pid urls now with ⟨t, himg, hf⟩
  intro r hr hp
  rw [himg] at hr
  rcases List.mem_append.mp hr with hr | hr
  · rcases List.mem_map.mp hr with ⟨r0, hr0, rfl⟩
    by_cases hp0 : r0.person_id = pid
    · unfold syncedRow setActiveExt
      by_cases hu : r0.url ∈ urls
      · simp [hp0, hu]
      · simp [hp0, hu]
    · exfalso
      apply hp0
      unfold syncedRow at hp
      rw [if_neg hp0] at hp
      exact hp
  · rcases hf r hr with ⟨f1, f2, f3, f4, _⟩
    refine ⟨?_, fun _ => f4⟩
    rw [f3]
    simp [f2]

def keyNe (a b : ImageRow) : Prop := a.person_id ≠ b.person_id ∨ a.url ≠ b.url

/-- The UNIQUE(person_id, url) constraint, as an invariant on the row list. -/
def KeysUnique (l : List ImageRow) : Prop := l.Pairwise keyNe

theorem keysUnique_map (l : List ImageRow) (f : ImageRow → ImageRow)
    (hf : ∀ r, (f r).person_id = r.person_id ∧ (f r).url = r.url)
    (h : KeysUnique l) : KeysUnique (l.map f) := by
  unfold KeysUnique at *
  refine List.Pairwise.map f ?_ h
  intro a b hab
  rcases hab with h1 | h1
  · left
    rw [(hf a).1, (hf b).1]
    exact h1
  · right
    rw [(hf a).2, (hf b).2]
    exact h1

theorem upsertOne_keysUnique (st : Catalog) (pid now : Nat) (u : String)
    (h : KeysUnique st.images) : KeysUnique (upsertOne pid now st u).images := by
  unfold upsertOne
  by_cases hk : hasKey st.images pid u
  · rw [if_pos hk]
    exact keysUnique_map _ _ (reactivate_fields pid u) h
  · rw [if_neg hk]
    show KeysUnique (st.images ++ [newRow pid u st.nextImageId now])
    unfold KeysUnique
    rw [List.pairwise_append]
    refine ⟨h, List.pairwise_singleton _ _, ?_⟩
    intro a ha b hb
    rw [List.mem_singleton.mp hb]
    by_cases hp : a.person_id = pid
    · right
      intro hc
      apply hk
      unfold hasKey
      rw [List.any_eq_true]
      exact ⟨a, ha, by simp [hp]; exact hc⟩
    · left
      exact hp

theorem foldl_upsertOne_keysUnique (pid now : Nat) :
    ∀ (urls : List String) (st : Catalog), KeysUnique st.images →
      KeysUnique (urls.foldl (upsertOne pid now) st).images := by
  intro urls
  induction urls with
  | nil => intro st h; exact h
  | cons v rest ih =>
    intro st h
    rw [List.foldl_cons]
    exact ih _ (upsertOne_keysUnique st pid now v h)

theorem upsert_images_keysUnique (st : Catalog) (pid : Nat) (urls : List String) (now : Nat)
    (h : KeysUnique st.images) : KeysUnique (upsert_images st pid urls now).images := by
  unfold upsert_images
  show KeysUnique (urls.foldl (upsertOne pid now) _).images
  apply foldl_upsertOne_keysUnique
  show KeysUnique (st.images.map (deactRow pid))
  exact keysUnique_map _ _ (deactRow_fields pid) h

theorem foldl_upsertOne_persons (pid now : Nat) :
    ∀ (urls : List String) (st : Catalog),
      (urls.foldl (upsertOne pid now) st).persons = st.persons := by
  intro urls
  induction urls with
  | nil => intro st; rfl
  | cons u rest ih =>
    intro st
    rw [List.foldl_cons, ih]
    unfold upsertOne
    split_ifs <;> rfl

theorem foldl_upsertOne_stats (pid now : Nat) :
    ∀ (urls : List String) (st : Catalog),
      (urls.foldl (upsertOne pid now) st).stats = st.stats := by
  intro urls
  induction urls with
  | nil => intro st; rfl
  | cons u rest ih =>
    intro st
    rw [List.foldl_cons, ih]
    unfold upsertOne
    split_ifs <;> rfl

theorem upsert_images_persons (st : Catalog) (pid : Nat) (urls : List String) (now : Nat) :
    (upsert_images st pid urls now).persons = st.persons := by
  unfold upsert_images
  show (urls.foldl (upsertOne pid now) _).persons = _
  rw [foldl_upsertOne_persons]

theorem upsert_images_statLookup (st : Catalog) (pid : Nat) (urls : List String) (now : Nat) :
    statLookup (upsert_images st pid urls now).stats pid
      = some (statsFor (upsert_images st pid urls now).images pid now) := by
  exact statLookup_putStats
    ((urls.foldl (upsertOne pid now) { st with images := st.images.map (deactRow pid) })).stats
    (statsFor ((urls.foldl (upsertOne pid now)
      { st with images := st.images.map (deactRow pid) })).images pid now)

theorem upsert_images_stats_other (st : Catalog) (pid : Nat) (urls : List String) (now : Nat)
    (pid' : Nat) (h : pid' ≠ pid) :
    statLookup (upsert_images st pid urls now).stats pid' = statLookup st.stats pid' := by
  unfold upsert_images
  have hother := statLookup_putStats_other
    ((urls.foldl (upsertOne pid now) { st with images := st.images.map (deactRow pid) })).stats
    (statsFor ((urls.foldl (upsertOne pid now)
      { st with images := st.images.map (deactRow pid) })).images pid now) pid' h
  rw [hother, foldl_upsertOne_stats]

/-! ## Counting the active rows of a synced person -/

theorem activeOf_map_nodup (l : List ImageRow) (pid : Nat) (h : KeysUnique l) :
    ((activeOf l pid).map (fun r => r.url)).Nodup := by
  unfold activeOf
  unfold KeysUnique at h
  have hpw : (l.filter (fun r => r.person_id = pid ∧ r.active)).Pairwise keyNe := h.filter _
  have hmem : ∀ r ∈ l.filter (fun r => r.person_id = pid ∧ r.active), r.person_id = pid := by
    intro r hr
    have hc := List.of_mem_filter hr
    simp only [decide_eq_true_eq] at hc
    exact hc.1
  have hurl : (l.filter (fun r => r.person_id = pid ∧ r.active)).Pairwise
      (fun a b => a.url ≠ b.url) := by
    apply List.Pairwise.imp_of_mem ?_ hpw
    intro a b ha hb hab
    rcases hab with h1 | h1
    · exact absurd ((hmem a ha).trans (hmem b hb).symm) h1
    · exact h1
  exact List.Pairwise.map _ (fun a b hab => hab) hurl

theorem upsert_images_active_mem (st : Catalog) (pid : Nat) (urls : List String) (now : Nat) :
    ∀ x, (x ∈ (activeOf (upsert_images st pid urls now).images pid).map (fun r => r.url))
        ↔ x ∈ urls := by
  intro x
  constructor
  · intro hx
    rcases List.mem_map.mp hx with ⟨r, hr, rfl⟩
    have hmem := List.mem_of_mem_filter hr
    have hc := List.of_mem_filter hr
    simp only [decide_eq_true_eq] at hc
    exact ((upsert_images_active st pid urls now r hmem hc.1).1).mp hc.2
  · intro hx
    have hk := upsert_images_hasKey st pid urls now x hx
    unfold hasKey at hk
    rw [List.any_eq_true] at hk
    rcases hk with ⟨r, hr, hc⟩
    simp only [decide_eq_true_eq] at hc
    have hch := upsert_images_active st pid urls now r hr hc.1
    have hact : r.active = true := hch.1.mpr (hc.2 ▸ hx)
    apply List.mem_map.mpr
    refine ⟨r, ?_, hc.2⟩
    apply List.mem_filter.mpr
    exact ⟨hr, by simp [hc.1, hact]⟩

theorem upsert_images_active_length (st : Catalog) (pid : Nat) (urls : List String) (now : Nat)
    (h : KeysUnique st.images) :
    (activeOf (upsert_images st pid urls now).images pid).length = urls.toFinset.card := by
  have hn := activeOf_map_nodup _ pid (upsert_images_keysUnique st pid urls now h)
  have hm := upsert_images_active_mem st pid urls now
  have h1 : ((activeOf (upsert_images st pid urls now).images pid).map
      (fun r => r.url)).toFinset = urls.toFinset := by
    apply Finset.ext
    intro x
    rw [List.mem_toFinset, List.mem_toFinset]
    exact hm x
  calc (activeOf (upsert_images st pid urls now).images pid).length
      = ((activeOf (upsert_images st pid urls now).images pid).map
          (fun r => r.url)).length := (List.length_map _ _).symm
    _ = ((activeOf (upsert_images st pid urls now).images pid).map
          (fun r => r.url)).toFinset.card := (List.toFinset_card_of_nodup hn).symm
    _ = urls.toFinset.card := by rw [h1]

theorem upsert_images_img_count (st : Catalog) (pid : Nat) (urls : List String) (now : Nat)
    (h : KeysUnique st.images) :
    (statLookup (upsert_images st pid urls now).stats pid).map (fun s => s.img_count)
      = some ((urls.toFinset.card : Int)) := by
  rw [upsert_images_statLookup]
  show some ((((activeOf (upsert_images st pid urls now).images pid).map
      (fun r => r.id)).length : Int)) = _
  rw [List.length_map, upsert_images_active_length st pid urls now h]

/-! ## C10: a sync pass only ever touches `active` and `ext` of existing rows -/

theorem syncedRow_fields (pid : Nat) (urls : List String) (r : ImageRow) :
    (syncedRow pid urls r).id = r.id ∧ (syncedRow pid urls r).person_id = r.person_id ∧
    (syncedRow pid urls r).url = r.url ∧ (syncedRow pid urls r).created_at = r.created_at ∧
    (syncedRow pid urls r).bytes = r.bytes ∧ (syncedRow pid urls r).etag = r.etag ∧
    (syncedRow pid urls r).last_modified = r.last_modified ∧
    (r.person_id = pid → r.url ∈ urls →
      (syncedRow pid urls r).active = true ∧ (syncedRow pid urls r).ext = extOf r.url) := by
  unfold syncedRow setActiveExt
  split_ifs with h1 h2 <;> simp_all

/-- C10: re-observing an existing `(person_id, url)` row updates only its
`active` flag and `ext` column in place: `id`, `created_at`, `bytes`,
`etag` and `last_modified` are untouched by `upsert_images`, so a resource
keeps a stable identifier and creation time across
deactivation/reactivation cycles. -/
theorem upsert_images_frame (st : Catalog) (pid : Nat) (urls : List String) (now : Nat)
    (i : Nat) (hi : i < st.images.length) :
    ∃ r r', st.images.get? i = some r ∧
      (upsert_images st pid urls now).images.get? i = some r' ∧
      r'.id = r.id ∧ r'.person_id = r.person_id ∧ r'.url = r.url ∧
      r'.created_at = r.created_at ∧ r'.bytes = r.bytes ∧ r'.etag = r.etag ∧
      r'.last_modified = r.last_modified ∧
      (r.person_id = pid → r.url ∈ urls → r'.active = true ∧ r'.ext = extOf r.url) := by
  rcases upsert_images_shape st pid urls now with ⟨t, himg, _⟩
  refine ⟨st.images.get ⟨i, hi⟩, syncedRow pid urls (st.images.get ⟨i, hi⟩),
    List.get?_eq_get hi, ?_, ?_⟩
  · rw [himg]
    rw [List.get?_append (by rw [List.length_map]; exact hi)]
    rw [List.get?_map, List.get?_eq_get hi]
    rfl
  · exact syncedRow_fields pid urls (st.images.get ⟨i, hi⟩)

theorem upsert_images_frame_witness :
    ∃ r r', catalog3.images.get? 0 = some r ∧
      (upsert_images catalog3 1 ["http://h/d/a.jpg"] 9).images.get? 0 = some r' ∧
      r'.id = r.id ∧ r'.person_id = r.person_id ∧ r'.url = r.url ∧
      r'.created_at = r.created_at ∧ r'.bytes = r.bytes ∧ r'.etag = r.etag ∧
      r'.last_modified = r.last_modified ∧
      (r.person_id = 1 → r.url ∈ ["http://h/d/a.jpg"] →
        r'.active = true ∧ r'.ext = extOf r.url) := by
  exact upsert_images_frame catalog3 1 ["http://h/d/a.jpg"] 9 0 (by decide)

/-! ## C4: idempotence of a repeated sync with an unchanged listing -/

theorem sync_person_run (listing : String → Except ListErr (List String)) (now : Nat)
    (st : Catalog) (name : String) (p : Person) (urls : List String)
    (hp : personLookup st.persons name = some p) (hen : p.enabled = true)
    (hl : listing p.dav_url = .ok urls) :
    sync_person listing now st name = (upsert_images st p.id urls now, none) := by
  unfold sync_person
  rw [hp]
  simp [hen, hl]

theorem imageRow_update_eq (r : ImageRow) (e : String) (b : Bool)
    (h1 : r.active = b) (h2 : r.ext = e) : { r with active := b, ext := e } = r := by
  cases r
  simp_all

theorem imageRow_set_active_eq (r : ImageRow) (b : Bool) (h1 : r.active = b) :
    { r with active := b } = r := by
  cases r
  simp_all

theorem foldl_upsertOne_map (pid now : Nat) :
    ∀ (urls : List String) (st : Catalog),
      (∀ u ∈ urls, hasKey st.images pid u = true) →
      urls.foldl (upsertOne pid now) st
        = { st with images := st.images.map (reactivateAny pid urls) } := by
  intro urls
  induction urls with
  | nil =>
    intro st h
    show st = _
    have hid : st.images.map (reactivateAny pid []) = st.images := by
      have : st.images.map (reactivateAny pid []) = st.images.map id :=
        List.map_congr_left (fun r _ => by simp [reactivateAny])
      rw [this, List.map_id]
    rw [hid]
  | cons u rest ih =>
    intro st h
    rw [List.foldl_cons]
    have hk : hasKey st.images pid u = true := h u (List.mem_cons_self u rest)
    have hstep : upsertOne pid now st u
        = { st with images := st.images.map (reactivate pid u) } := by
      unfold upsertOne
      rw [if_pos hk]
    rw [hstep, ih]
    · show ({ st with images := (st.images.map (reactivate pid u)).map (reactivateAny pid rest) }
          : Catalog) = _
      congr 1
      rw [List.map_map]
      exact List.map_congr_left fun r _ => reactivateAny_reactivate pid u rest r
    · intro v hv
      show hasKey (st.images.map (reactivate pid u)) pid v = true
      rw [hasKey_map_pres _ _ _ _ (reactivate_fields pid u)]
      exact h v (List.mem_cons_of_mem u hv)

theorem syncedRow_id_of_synced (st : Catalog) (pid : Nat) (urls : List String) (now : Nat)
    (r : ImageRow) (hr : r ∈ (upsert_images st pid urls now).images) :
    syncedRow pid urls r = r := by
  by_cases hp : r.person_id = pid
  · have hch := upsert_images_active st pid urls now r hr hp
    unfold syncedRow setActiveExt
    rw [if_pos hp]
    by_cases hu : r.url ∈ urls
    · rw [if_pos hu]
      exact imageRow_update_eq r (extOf r.url) true (hch.1.mpr hu) (hch.2 hu)
    · rw [if_neg hu]
      apply imageRow_set_active_eq
      cases hact : r.active
      · rfl
      · exact absurd (hch.1.mp hact) hu
  · unfold syncedRow
    rw [if_neg hp]

theorem upsert_images_idem_images (st : Catalog) (pid : Nat) (urls : List String)
    (now1 now2 : Nat) :
    (upsert_images (upsert_images st pid urls now1) pid urls now2).images
      = (upsert_images st pid urls now1).images := by
  have hkeys : ∀ u ∈ urls,
      hasKey (upsert_images st pid urls now1).images pid u = true :=
    fun u hu => upsert_images_hasKey st pid urls now1 u hu
  unfold upsert_images
  show (urls.foldl (upsertOne pid now2)
      { upsert_images st pid urls now1 with
        images := (upsert_images st pid urls now1).images.map (deactRow pid) }).images = _
  rw [foldl_upsertOne_map pid now2 urls _ ?hk]
  case hk =>
    intro u hu
    show hasKey ((upsert_images st pid urls now1).images.map (deactRow pid)) pid u = true
    rw [hasKey_map_pres _ _ _ _ (deactRow_fields pid)]
    exact hkeys u hu
  show ((upsert_images st pid urls now1).images.map (deactRow pid)).map
      (reactivateAny pid urls) = _
  rw [List.map_map]
  calc (upsert_images st pid urls now1).images.map (reactivateAny pid urls ∘ deactRow pid)
      = (upsert_images st pid urls now1).images.map (syncedRow pid urls) :=
        List.map_congr_left fun r _ => syncedRow_eq pid urls r
    _ = (upsert_images st pid urls now1).images.map id :=
        List.map_congr_left fun r hr => syncedRow_id_of_synced st pid urls now1 r hr
    _ = (upsert_images st pid urls now1).images := List.map_id _

theorem upsert_images_idem_stats (st : Catalog) (pid : Nat) (urls : List String)
    (now1 now2 : Nat) (pid' : Nat) :
    (statLookup (upsert_images (upsert_images st pid urls now1) pid urls now2).stats pid').map
        (fun s => (s.img_count, s.min_id, s.max_id))
      = (statLookup (upsert_images st pid urls now1).stats pid').map
        (fun s => (s.img_count, s.min_id, s.max_id)) := by
  by_cases hp : pid' = pid
  · subst hp
    rw [upsert_images_statLookup, upsert_images_statLookup]
    rw [upsert_images_idem_images]
    simp [statsFor]
  · rw [upsert_images_stats_other _ _ _ _ _ hp]

/-- C4: running `sync_person` twice in a row against the same unchanged
listing yields identical image rows after the second call as after the
first, and `person_stats` rows identical in `img_count`/`min_id`/`max_id`
(only the `updated_at` timestamp is refreshed). -/
theorem sync_person_idempotent (listing : String → Except ListErr (List String))
    (now1 now2 : Nat) (st : Catalog) (name : String) :
    ((sync_person listing now2 (sync_person listing now1 st name).1 name).1.images
        = (sync_person listing now1 st name).1.images) ∧
    ∀ pid, (statLookup
        (sync_person listing now2 (sync_person listing now1 st name).1 name).1.stats pid).map
          (fun s => (s.img_count, s.min_id, s.max_id))
      = (statLookup (sync_person listing now1 st name).1.stats pid).map
          (fun s => (s.img_count, s.min_id, s.max_id)) := by
  cases hp : personLookup st.persons name with
  | none =>
    have h1 : (sync_person listing now1 st name).1 = st := by
      unfold sync_person
      rw [hp]
    have h2 : (sync_person listing now2 (sync_person listing now1 st name).1 name).1 = st := by
      rw [h1]
      unfold sync_person
      rw [hp]
    rw [h2, h1]
    exact ⟨rfl, fun _ => rfl⟩
  | some p =>
    by_cases hen : p.enabled
    · cases hl : listing p.dav_url with
      | error e =>
        have h1 : (sync_person listing now1 st name).1 = st := by
          unfold sync_person
          rw [hp]
          simp [hen, hl]
        have h2 : (sync_person listing now2 (sync_person listing now1 st name).1 name).1
            = st := by
          rw [h1]
          unfold sync_person
          rw [hp]
          simp [hen, hl]
        rw [h2, h1]
        exact ⟨rfl, fun _ => rfl⟩
      | ok urls =>
        have h1 := sync_person_run listing now1 st name p urls hp hen hl
        have hp2 : personLookup (upsert_images st p.id urls now1).persons name = some p := by
          rw [upsert_images_persons]
          exact hp
        have h2 := sync_person_run listing now2 (upsert_images st p.id urls now1) name p urls
          hp2 hen hl
        rw [h1]
        show ((sync_person listing now2 (upsert_images st p.id urls now1) name).1.images = _) ∧ _
        rw [h2]
        exact ⟨upsert_images_idem_images st p.id urls now1 now2,
          fun pid => upsert_images_idem_stats st p.id urls now1 now2 pid⟩
    · have h1 : (sync_person listing now1 st name).1 = st := by
        unfold sync_person
        rw [hp]
        simp [hen]
      have h2 : (sync_person listing now2 (sync_person listing now1 st name).1 name).1
          = st := by
        rw [h1]
        unfold sync_person
        rw [hp]
        simp [hen]
      rw [h2, h1]
      exact ⟨rfl, fun _ => rfl⟩

/-! ## C3: soft delete -/

/-- C3: a pre-existing row whose URL is absent from the new listing
survives a successful sync with `active = 0` (sync never deletes rows),
and when exactly one URL disappears from an otherwise unchanged listing,
`img_count` drops by exactly one. -/
theorem sync_person_soft_delete :
    (∀ listing now (st : Catalog) name p urls (r : ImageRow),
        personLookup st.persons name = some p → p.enabled = true →
        listing p.dav_url = .ok urls →
        r ∈ st.images → r.person_id = p.id → r.url ∉ urls →
        ∃ r' ∈ (sync_person listing now st name).1.images,
          r'.id = r.id ∧ r'.person_id = p.id ∧ r'.url = r.url ∧ r'.active = false) ∧
    (∀ (L1 L2 : String → Except ListErr (List String)) now1 now2 (st : Catalog) name p urls u,
        personLookup st.persons name = some p → p.enabled = true →
        L1 p.dav_url = .ok urls → L2 p.dav_url = .ok (urls.erase u) →
        urls.Nodup → u ∈ urls → KeysUnique st.images →
        (∃ r' ∈ (sync_person L2 now2 (sync_person L1 now1 st name).1 name).1.images,
            r'.person_id = p.id ∧ r'.url = u ∧ r'.active = false) ∧
        ∃ n : Int,
          (statLookup (sync_person L1 now1 st name).1.stats p.id).map
              (fun s => s.img_count) = some n ∧
          (statLookup
              (sync_person L2 now2 (sync_person L1 now1 st name).1 name).1.stats p.id).map
              (fun s => s.img_count) = some (n - 1)) := by
  have key : ∀ (st : Catalog) pid urls now (r : ImageRow),
      r ∈ st.images → r.person_id = pid → r.url ∉ urls →
      ∃ r' ∈ (upsert_images st pid urls now).images,
        r'.id = r.id ∧ r'.person_id = pid ∧ r'.url = r.url ∧ r'.active = false := by
    intro st pid urls now r hr hrp hru
    rcases upsert_images_shape st pid urls now with ⟨t, himg, _⟩
    refine ⟨syncedRow pid urls r, ?_, ?_⟩
    · rw [himg]
      exact List.mem_append.mpr (Or.inl (List.mem_map.mpr ⟨r, hr, rfl⟩))
    · unfold syncedRow
      rw [if_pos hrp, if_neg hru]
      exact ⟨rfl, hrp, rfl, rfl⟩
  constructor
  · intro listing now st name p urls r hp hen hl hr hrp hru
    rw [sync_person_run listing now st name p urls hp hen hl]
    exact key st p.id urls now r hr hrp hru
  · intro L1 L2 now1 now2 st name p urls u hp hen hl1 hl2 hnd hu hKU
    rw [sync_person_run L1 now1 st name p urls hp hen hl1]
    have hp2 : personLookup (upsert_images st p.id urls now1).persons name = some p := by
      rw [upsert_images_persons]
      exact hp
    rw [sync_person_run L2 now2 (upsert_images st p.id urls now1) name p (urls.erase u)
      hp2 hen hl2]
    have hKU1 : KeysUnique (upsert_images st p.id urls now1).images :=
      upsert_images_keysUnique st p.id urls now1 hKU
    constructor
    · -- the (p.id, u) row exists in st1 and is deactivated by the second sync
      have hk := upsert_images_hasKey st p.id urls now1 u hu
      unfold hasKey at hk
      rw [List.any_eq_true] at hk
      rcases hk with ⟨r1, hr1, hc⟩
      simp only [decide_eq_true_eq] at hc
      have hnotmem : r1.url ∉ urls.erase u := by
        rw [hc.2]
        intro hmem
        rcases (List.Nodup.mem_erase_iff hnd).mp hmem with ⟨hne, _⟩
        exact hne rfl
      rcases key (upsert_images st p.id urls now1) p.id (urls.erase u) now2 r1 hr1 hc.1 hnotmem
        with ⟨r', hr', hid, hpid, hurl, hact⟩
      exact ⟨r', hr', hpid, by rw [hurl, hc.2], hact⟩
    · refine ⟨(urls.toFinset.card : Int), upsert_images_img_count st p.id urls now1 hKU, ?_⟩
      rw [upsert_images_img_count (upsert_images st p.id urls now1) p.id (urls.erase u) now2
        hKU1]
      have hset : (urls.erase u).toFinset = urls.toFinset.erase u := by
        apply Finset.ext
        intro x
        rw [List.mem_toFinset, List.Nodup.mem_erase_iff hnd, Finset.mem_erase, List.mem_toFinset]
      have hcard : (urls.toFinset.erase u).card = urls.toFinset.card - 1 :=
        Finset.card_erase_of_mem (List.mem_toFinset.mpr hu)
      have hpos : 1 ≤ urls.toFinset.card :=
        Finset.card_pos.mpr ⟨u, List.mem_toFinset.mpr hu⟩
      rw [hset, hcard]
      congr 1
      push_cast [Nat.cast_sub hpos]
      ring

def listingW2 : String → Except ListErr (List String) :=
  fun _ => .ok ["http://h/d/a.jpg", "http://h/d/b.jpg"]

def listingW1 : String → Except ListErr (List String) :=
  fun _ => .ok ["http://h/d/a.jpg"]

theorem sync_person_soft_delete_witness :
    (∃ r' ∈ (sync_person listingW1 11
        (sync_person listingW2 10 catalogW "A").1 "A").1.images,
      r'.person_id = 1 ∧ r'.url = "http://h/d/b.jpg" ∧ r'.active = false) ∧
    ∃ n : Int,
      (statLookup (sync_person listingW2 10 catalogW "A").1.stats 1).map
          (fun s => s.img_count) = some n ∧
      (statLookup (sync_person listingW1 11
          (sync_person listingW2 10 catalogW "A").1 "A").1.stats 1).map
          (fun s => s.img_count) = some (n - 1) := by
  have h := sync_person_soft_delete.2 listingW2 listingW1 10 11 catalogW "A" personW
    ["http://h/d/a.jpg", "http://h/d/b.jpg"] "http://h/d/b.jpg"
    rfl rfl rfl rfl (by decide) (by decide) List.Pairwise.nil
  exact h

/-! ## C6: the directory branch of the lister -/

theorem list_dir_foldl_filterMap (u : String) :
    ∀ (hrefs : List String) (acc : List String),
      hrefs.foldl (fun out href =>
          if href = "" then out
          else
            if rstripSlash (_enc (_abs u href)) = rstripSlash (_enc u) then out
            else if _is_image (_abs u href) then out ++ [_abs u href] else out) acc
        = acc ++ hrefs.filterMap (fun href =>
            if href = "" then none
            else if rstripSlash (_enc (_abs u href)) = rstripSlash (_enc u) then none
            else if _is_image (_abs u href) then some (_abs u href) else none) := by
  intro hrefs
  induction hrefs with
  | nil =>
    intro acc
    simp
  | cons h t ih =>
    intro acc
    rw [List.foldl_cons, List.filterMap_cons]
    by_cases h1 : h = ""
    · simp [h1, ih]
    · by_cases h2 : rstripSlash (_enc (_abs u h)) = rstripSlash (_enc u)
      · simp [h1, h2, ih]
      · by_cases h3 : _is_image (_abs u h)
        · simp [h1, h2, h3, ih]
        · simp [h1, h2, h3, ih]

def basePerson : Person := ⟨1, "miho", ["m"], "http://192.168.1.177:5005/nsy/d/", true⟩

def baseCatalog : Catalog := ⟨[basePerson], [], [], 1⟩

def exClient : DavClient :=
  ⟨fun _ => .ok 200, fun _ => .ok 206,
   fun _ => .ok (207, some
     ["/nsy/d/", "/nsy/d/x.jpg", "/nsy/d/y.PNG", "/nsy/d/notes.txt", "/nsy/d/subdir/"])⟩

/-- C6: on a successful multistatus response the lister keeps, in order,
exactly the non-empty hrefs that resolve (via `_abs`) to an absolute URL
different from the directory itself (compared percent-encoded and
trailing-slash-insensitively) and whose extension is in the allow-list
(matched case-insensitively by `_is_image`); on the spec's example listing
this yields exactly two active image rows and `img_count = 2` after sync. -/
theorem list_dir_directory_spec :
    (∀ (c : DavClient) (u : String) (hrefs : List String) (s : Nat),
        pyStrip u = u → u ≠ "" → _is_image u = false →
        c.propfindResult (_enc u) = .ok (s, some hrefs) → 200 ≤ s → s ≤ 299 →
        list_dir c u = .ok (hrefs.filterMap (fun href =>
          if href = "" then none
          else if rstripSlash (_enc (_abs u href)) = rstripSlash (_enc u) then none
          else if _is_image (_abs u href) then some (_abs u href) else none))) ∧
    list_dir exClient "http://192.168.1.177:5005/nsy/d/" = .ok
      ["http://192.168.1.177:5005/nsy/d/x.jpg", "http://192.168.1.177:5005/nsy/d/y.PNG"] ∧
    ((activeOf (sync_person (list_dir exClient) 3 baseCatalog "miho").1.images 1).map
        (fun r => r.url))
      = ["http://192.168.1.177:5005/nsy/d/x.jpg", "http://192.168.1.177:5005/nsy/d/y.PNG"] ∧
    (statLookup (sync_person (list_dir exClient) 3 baseCatalog "miho").1.stats 1).map
        (fun s => s.img_count) = some 2 := by
  refine ⟨?_, rfl, by decide, rfl⟩
  intro c u hrefs s hstrip hne himg hpf h2 h3
  unfold list_dir
  rw [hstrip]
  simp [hne, himg, hpf, raiseForStatus, h2, h3, Bind.bind, Except.bind, Pure.pure, Except.pure]
  exact list_dir_foldl_filterMap u hrefs []

theorem list_dir_directory_spec_witness :
    list_dir exClient "http://192.168.1.177:5005/nsy/d/" = .ok
      (["/nsy/d/", "/nsy/d/x.jpg", "/nsy/d/y.PNG", "/nsy/d/notes.txt",
        "/nsy/d/subdir/"].filterMap (fun href =>
          if href = "" then none
          else if rstripSlash (_enc (_abs "http://192.168.1.177:5005/nsy/d/" href))
              = rstripSlash (_enc "http://192.168.1.177:5005/nsy/d/") then none
          else if _is_image (_abs "http://192.168.1.177:5005/nsy/d/" href)
              then some (_abs "http://192.168.1.177:5005/nsy/d/" href) else none)) := by
  exact list_dir_directory_spec.1 exClient "http://192.168.1.177:5005/nsy/d/"
    ["/nsy/d/", "/nsy/d/x.jpg", "/nsy/d/y.PNG", "/nsy/d/notes.txt", "/nsy/d/subdir/"] 207
    rfl (by decide) (by decide) rfl (by decide) (by decide)

/-! ## C9: lemmas on the splitting primitives -/

theorem not_mem_of_all {l : List Char} {p : Char → Bool} {c : Char}
    (hall : l.all p = true) (hc : p c = false) : c ∉ l := by
  intro hm
  have := List.all_eq_true.mp hall c hm
  rw [hc] at this
  exact Bool.false_ne_true this

theorem breakAt_not_mem (c : Char) (l : List Char) (h : c ∉ l) : breakAt c l = (l, none) := by
  induction l with
  | nil => rfl
  | cons x xs ih =>
    have hx : ¬(x = c) := fun hc => h (by rw [hc]; exact List.mem_cons_self c xs)
    have hxs : c ∉ xs := fun hm => h (List.mem_cons_of_mem x hm)
    simp [breakAt, hx, ih hxs]

theorem breakAt_cons_self (c : Char) (l : List Char) : breakAt c (c :: l) = ([], some l) := by
  simp [breakAt]

theorem breakAt_cons_ne (c x : Char) (xs : List Char) (hx : ¬(x = c)) :
    breakAt c (x :: xs) = (x :: (breakAt c xs).1, (breakAt c xs).2) := by
  simp [breakAt, hx]

theorem breakAt_append_not_mem (c : Char) (A B : List Char) (h : c ∉ A) :
    breakAt c (A ++ B) = (A ++ (breakAt c B).1, (breakAt c B).2) := by
  induction A with
  | nil => simp
  | cons x xs ih =>
    have hx : ¬(x = c) := fun hc => h (by rw [hc]; exact List.mem_cons_self c xs)
    have hxs : c ∉ xs := fun hm => h (List.mem_cons_of_mem x hm)
    rw [List.cons_append, breakAt_cons_ne c x (xs ++ B) hx, ih hxs]
    rfl

theorem breakAt_append (c : Char) (A B : List Char) (h : c ∉ A) :
    breakAt c (A ++ c :: B) = (A, some B) := by
  rw [breakAt_append_not_mem c A (c :: B) h, breakAt_cons_self]
  simp

theorem breakAt_spec (c : Char) :
    ∀ (l bef aft : List Char), breakAt c l = (bef, some aft) →
      l = bef ++ c :: aft ∧ c ∉ bef := by
  intro l
  induction l with
  | nil => intro bef aft h; exact absurd h (by simp [breakAt])
  | cons x xs ih =>
    intro bef aft h
    by_cases hx : x = c
    · rw [show breakAt c (x :: xs) = ([], some xs) from by rw [hx]; exact breakAt_cons_self c xs]
        at h
      injection h with h1 h2
      injection h2 with h2
      subst h1
      subst h2
      subst hx
      exact ⟨rfl, List.not_mem_nil x⟩
    · rw [breakAt_cons_ne c x xs hx] at h
      cases hb : breakAt c xs with
      | mk b1 b2 =>
        rw [hb] at h
        cases b2 with
        | none =>
          injection h with h1 h2
          exact absurd h2 (by simp)
        | some aft2 =>
          injection h with h1 h2
          injection h2 with h2
          subst h1
          subst h2
          rcases ih _ _ hb with ⟨hsp, hnm⟩
          constructor
          · rw [List.cons_append, ← hsp]
          · intro hm
            rcases List.mem_cons.mp hm with hc | hc
            · exact hx hc.symm
            · exact hnm hc

theorem breakAt_none_spec (c : Char) (l : List Char) (h : (breakAt c l).2 = none) : c ∉ l := by
  induction l with
  | nil => exact List.not_mem_nil c
  | cons x xs ih =>
    by_cases hx : x = c
    · rw [show breakAt c (x :: xs) = ([], some xs) from by rw [hx]; exact breakAt_cons_self c xs]
        at h
      simp at h
    · rw [breakAt_cons_ne c x xs hx] at h
      intro hm
      rcases List.mem_cons.mp hm with hc | hc
      · exact hx hc.symm
      · exact ih h hc

theorem splitAtLast_spec (c : Char) (l : List Char) (a b : List Char)
    (h : splitAtLast c l = some (a, b)) : l = a ++ c :: b ∧ c ∉ b := by
  unfold splitAtLast at h
  cases hb : breakAt c l.reverse with
  | mk r1 r2 =>
    rw [hb] at h
    cases r2 with
    | none => simp at h
    | some ra =>
      simp only [Option.some.injEq, Prod.mk.injEq] at h
      rcases breakAt_spec c l.reverse r1 ra hb with ⟨hsp, hnm⟩
      have hl : l = ra.reverse ++ c :: r1.reverse := by
        have := congrArg List.reverse hsp
        rw [List.reverse_reverse, List.reverse_append, List.reverse_cons, List.append_assoc]
          at this
        simpa using this
      refine ⟨?_, ?_⟩
      · rw [← h.1, ← h.2]
        exact hl
      · rw [← h.2]
        intro hm
        exact hnm (List.mem_reverse.mp hm)

theorem splitAtLast_not_mem (c : Char) (l : List Char) (h : c ∉ l) :
    splitAtLast c l = none := by
  unfold splitAtLast
  rw [breakAt_not_mem c l.reverse (fun hm => h (List.mem_reverse.mp hm))]

theorem splitAtLast_exact (c : Char) (A B : List Char) (h : c ∉ B) :
    splitAtLast c (A ++ c :: B) = some (A, B) := by
  unfold splitAtLast
  rw [List.reverse_append, List.reverse_cons, List.append_assoc]
  have hrev : B.reverse ++ ([c] ++ A.reverse) = B.reverse ++ c :: A.reverse := rfl
  rw [hrev, breakAt_append c B.reverse A.reverse (fun hm => h (List.mem_reverse.mp hm))]
  simp

/-! ### Character-level lemmas -/

def asciiChar (c : Char) : Bool := c.toNat < 128

theorem splitAtLast_none_not_mem (c : Char) (l : List Char) (h : splitAtLast c l = none) :
    c ∉ l := by
  unfold splitAtLast at h
  cases hb : breakAt c l.reverse with
  | mk r1 r2 =>
    cases r2 with
    | none =>
      intro hm
      exact breakAt_none_spec c l.reverse (by rw [hb]) (List.mem_reverse.mpr hm)
    | some ra =>
      rw [hb] at h
      simp at h

theorem char_toNat_ofNat (n : Nat) (h : n < 55296) : (Char.ofNat n).toNat = n := by
  rw [Char.ofNat, dif_pos (Or.inl h)]
  rfl

theorem isAsciiUpper_bounds (c : Char) (h : isAsciiUpper c = true) :
    65 ≤ c.toNat ∧ c.toNat ≤ 90 := by
  unfold isAsciiUpper at h
  simp only [Bool.and_eq_true, decide_eq_true_eq] at h
  exact h

theorem lowerChar_toNat (c : Char) (h : isAsciiUpper c = true) :
    (lowerChar c).toNat = c.toNat + 32 := by
  unfold lowerChar
  rw [if_pos h]
  exact char_toNat_ofNat _ (by rcases isAsciiUpper_bounds c h with ⟨_, h2⟩; omega)

theorem lowerChar_eq_of_not_upper (c : Char) (h : isAsciiUpper c = false) :
    lowerChar c = c := by
  unfold lowerChar
  rw [if_neg (by rw [h]; exact Bool.false_ne_true)]

theorem isAsciiLower_lowerChar (c : Char) (h : isAsciiAlpha c = true) :
    isAsciiLower (lowerChar c) = true := by
  unfold isAsciiAlpha at h
  rw [Bool.or_eq_true] at h
  rcases h with h | h
  · rcases isAsciiUpper_bounds c h with ⟨h1, h2⟩
    unfold isAsciiLower
    rw [lowerChar_toNat c h]
    simp only [Bool.and_eq_true, decide_eq_true_eq]
    omega
  · have hnu : isAsciiUpper c = false := by
      unfold isAsciiUpper isAsciiLower at *
      simp only [Bool.and_eq_true, decide_eq_true_eq] at h
      simp only [Bool.and_eq_false_iff, decide_eq_false_iff_not]
      right
      omega
    rw [lowerChar_eq_of_not_upper c hnu]
    exact h

theorem isAsciiAlpha_of_lower (c : Char) (h : isAsciiLower c = true) :
    isAsciiAlpha c = true := by
  unfold isAsciiAlpha
  rw [h, Bool.or_true]

theorem schemeChar_lowerChar (c : Char) (h : schemeChar c = true) :
    schemeChar (lowerChar c) = true := by
  cases hu : isAsciiUpper c with
  | false => rw [lowerChar_eq_of_not_upper c hu]; exact h
  | true =>
    unfold schemeChar
    have := isAsciiLower_lowerChar c (by unfold isAsciiAlpha; rw [hu]; rfl)
    rw [isAsciiAlpha_of_lower _ this]
    rfl

theorem lowerChar_idem (c : Char) : lowerChar (lowerChar c) = lowerChar c := by
  cases hu : isAsciiUpper c with
  | false => rw [lowerChar_eq_of_not_upper c hu, lowerChar_eq_of_not_upper c hu]
  | true =>
    apply lowerChar_eq_of_not_upper
    unfold isAsciiUpper
    rw [lowerChar_toNat c hu]
    rcases isAsciiUpper_bounds c hu with ⟨h1, h2⟩
    simp only [Bool.and_eq_false_iff, decide_eq_false_iff_not]
    right
    omega

theorem lowerChar_ascii (c : Char) (h : asciiChar c = true) : asciiChar (lowerChar c) = true := by
  cases hu : isAsciiUpper c with
  | false => rw [lowerChar_eq_of_not_upper c hu]; exact h
  | true =>
    unfold asciiChar
    rw [lowerChar_toNat c hu]
    rcases isAsciiUpper_bounds c hu with ⟨_, h2⟩
    simp only [decide_eq_true_eq]
    omega

theorem ws_cases (c : Char) (h : unsafeWs c = true) : c = '\t' ∨ c = '\r' ∨ c = '\n' := by
  unfold unsafeWs at h
  simp only [Bool.or_eq_true, decide_eq_true_eq] at h
  exact or_assoc.mp h

theorem schemeChar_not_ws (c : Char) (h : schemeChar c = true) : unsafeWs c = false := by
  cases hw : unsafeWs c with
  | false => rfl
  | true =>
    exfalso
    rcases ws_cases c hw with rfl | rfl | rfl <;> exact absurd h (by decide)

theorem quoteSafe_not_ws (c : Char) (h : quoteSafe c = true) : unsafeWs c = false := by
  cases hw : unsafeWs c with
  | false => rfl
  | true =>
    exfalso
    rcases ws_cases c hw with rfl | rfl | rfl <;> exact absurd h (by decide)

/-! ### Scheme validity -/

/-- The test `urlsplit` applies to the text before the first `:`. -/
def schemeCondB : List Char → Bool
  | [] => false
  | b :: bs => isAsciiAlpha b && (b :: bs).all schemeChar

/-- The condition under which `urlsplit` recognizes a scheme prefix. -/
def schemeValidB (l : List Char) : Bool :=
  match breakAt ':' l with
  | (bef, some _) => schemeCondB bef
  | (_, none) => false

theorem schemeCondB_false_of_mem (c : Char) (bef : List Char) (hc : c ∈ bef)
    (h2 : schemeChar c = false) : schemeCondB bef = false := by
  cases bef with
  | nil => rfl
  | cons b bs =>
    show (isAsciiAlpha b && (b :: bs).all schemeChar) = false
    have hall : (b :: bs).all schemeChar = false := by
      cases ha : (b :: bs).all schemeChar with
      | false => rfl
      | true =>
        have := List.all_eq_true.mp ha c hc
        rw [h2] at this
        exact absurd this Bool.false_ne_true
    rw [hall, Bool.and_false]

theorem extractScheme_invalid (d u : List Char) (h : schemeValidB u = false) :
    extractScheme d u = (d, u) := by
  unfold extractScheme
  unfold schemeValidB at h
  cases hb : breakAt ':' u with
  | mk bef aft =>
    rw [hb] at h
    cases aft with
    | none => rfl
    | some a =>
      cases bef with
      | nil => rfl
      | cons b bs =>
        have hc : (isAsciiAlpha b && (b :: bs).all schemeChar) = false := h
        dsimp only
        rw [if_neg (by rw [hc]; exact Bool.false_ne_true)]

theorem extractScheme_valid_shape (d : List Char) (bef aft : List Char)
    (hb : isAsciiAlpha bef.headI = true) (hall : bef.all schemeChar = true)
    (hne : bef ≠ []) (hcol : ':' ∉ bef) :
    extractScheme d (bef ++ ':' :: aft) = (bef.map lowerChar, aft) := by
  unfold extractScheme
  rw [breakAt_append ':' bef aft hcol]
  cases bef with
  | nil => exact absurd rfl hne
  | cons b bs =>
    dsimp only
    rw [if_pos]
    rw [Bool.and_eq_true]
    constructor
    · exact hb
    · exact hall

theorem schemeValidB_append_right (A s : List Char) (h : schemeValidB A = true) :
    schemeValidB (A ++ s) = true := by
  unfold schemeValidB at *
  cases hb : breakAt ':' A with
  | mk bef aft =>
    rw [hb] at h
    cases aft with
    | none => simp at h
    | some a =>
      rcases breakAt_spec ':' A bef a hb with ⟨hsp, hnm⟩
      rw [hsp, List.append_assoc]
      rw [show (':' :: a) ++ s = ':' :: (a ++ s) from rfl]
      rw [breakAt_append ':' bef (a ++ s) hnm]
      exact h

theorem schemeValidB_prefix_false (A s : List Char) (h : schemeValidB (A ++ s) = false) :
    schemeValidB A = false := by
  cases hv : schemeValidB A with
  | false => rfl
  | true => rw [schemeValidB_append_right A s hv] at h; exact absurd h (by simp)

theorem schemeValidB_nil : schemeValidB [] = false := rfl

theorem schemeValidB_cons_bad (c : Char) (S : List Char) (h1 : ¬(c = ':'))
    (h2 : schemeChar c = false) : schemeValidB (c :: S) = false := by
  unfold schemeValidB
  rw [breakAt_cons_ne ':' c S h1]
  cases hb : (breakAt ':' S).2 with
  | none => rfl
  | some a =>
    exact schemeCondB_false_of_mem c _ (List.mem_cons_self _ _) h2

theorem schemeValidB_colon_head (S : List Char) : schemeValidB (':' :: S) = false := by
  unfold schemeValidB
  rw [breakAt_cons_self]
  rfl

theorem schemeValidB_append_bad (A T : List Char) (hA : schemeValidB A = false)
    (hT : T = [] ∨ ∃ c T', T = c :: T' ∧ ¬(c = ':') ∧ schemeChar c = false) :
    schemeValidB (A ++ T) = false := by
  cases hb : breakAt ':' A with
  | mk bef aft =>
    cases aft with
    | some a =>
      rcases breakAt_spec ':' A bef a hb with ⟨hsp, hnm⟩
      unfold schemeValidB at hA ⊢
      rw [hb] at hA
      rw [hsp, List.append_assoc, show (':' :: a) ++ T = ':' :: (a ++ T) from rfl,
        breakAt_append ':' bef (a ++ T) hnm]
      exact hA
    | none =>
      have hnc : ':' ∉ A := breakAt_none_spec ':' A (by rw [hb])
      rcases hT with rfl | ⟨c, T', rfl, hc1, hc2⟩
      · rw [List.append_nil]
        exact hA
      · unfold schemeValidB
        rw [breakAt_append_not_mem ':' A (c :: T') hnc, breakAt_cons_ne ':' c T' hc1]
        cases hb2 : (breakAt ':' T').2 with
        | none => rfl
        | some a2 =>
          exact schemeCondB_false_of_mem c _
            (List.mem_append.mpr (Or.inr (List.mem_cons_self _ _))) hc2

/-! ### Lemmas about `pyQuote` -/

theorem pyQuote_append (A B : List Char) : pyQuote (A ++ B) = pyQuote A ++ pyQuote B := by
  induction A with
  | nil => rfl
  | cons x xs ih =>
    rw [List.cons_append]
    show quoteChar x ++ pyQuote (xs ++ B) = (quoteChar x ++ pyQuote xs) ++ pyQuote B
    rw [ih, List.append_assoc]

theorem hexDigit_lt16_safe (n : Nat) (h : n < 16) :
    quoteSafe (hexDigit n) = true ∧ hexDigit n ≠ ':' ∧ schemeChar (hexDigit n) = true ∧
    asciiChar (hexDigit n) = true := by
  interval_cases n <;> exact ⟨by decide, by decide, by decide, by decide⟩

theorem quoteChar_all_safe (c : Char) (h : asciiChar c = true) :
    ∀ x ∈ quoteChar c, quoteSafe x = true ∧ asciiChar x = true := by
  unfold quoteChar
  by_cases hs : quoteSafe c
  · rw [if_pos hs]
    intro x hx
    rcases List.mem_cons.mp hx with rfl | hx
    · refine ⟨hs, h⟩
    · exact absurd hx (List.not_mem_nil x)
  · rw [if_neg hs]
    unfold asciiChar at h
    simp only [decide_eq_true_eq] at h
    have h1 : c.toNat / 16 < 16 := by omega
    have h2 : c.toNat % 16 < 16 := Nat.mod_lt _ (by omega)
    intro x hx
    rcases List.mem_cons.mp hx with rfl | hx
    · exact ⟨by decide, by decide⟩
    rcases List.mem_cons.mp hx with rfl | hx
    · exact ⟨(hexDigit_lt16_safe _ h1).1, (hexDigit_lt16_safe _ h1).2.2.2⟩
    rcases List.mem_cons.mp hx with rfl | hx
    · exact ⟨(hexDigit_lt16_safe _ h2).1, (hexDigit_lt16_safe _ h2).2.2.2⟩
    · exact absurd hx (List.not_mem_nil x)

theorem pyQuote_all_safe (l : List Char) (h : l.all asciiChar = true) :
    (pyQuote l).all quoteSafe = true ∧ (pyQuote l).all asciiChar = true := by
  induction l with
  | nil => exact ⟨rfl, rfl⟩
  | cons x xs ih =>
    rw [List.all_cons, Bool.and_eq_true] at h
    show ((quoteChar x ++ pyQuote xs).all quoteSafe = true) ∧
      ((quoteChar x ++ pyQuote xs).all asciiChar = true)
    rw [List.all_append, List.all_append, Bool.and_eq_true, Bool.and_eq_true]
    have hqc := quoteChar_all_safe x h.1
    rcases ih h.2 with ⟨ih1, ih2⟩
    refine ⟨⟨?_, ih1⟩, ⟨?_, ih2⟩⟩
    · rw [List.all_eq_true]
      intro x2 hx2
      exact (hqc x2 hx2).1
    · rw [List.all_eq_true]
      intro x2 hx2
      exact (hqc x2 hx2).2

theorem pyQuote_fix (l : List Char) (h : l.all quoteSafe = true) : pyQuote l = l := by
  induction l with
  | nil => rfl
  | cons x xs ih =>
    rw [List.all_cons, Bool.and_eq_true] at h
    show quoteChar x ++ pyQuote xs = x :: xs
    unfold quoteChar
    rw [if_pos h.1, ih h.2]
    rfl

theorem pyQuote_ne_nil (l : List Char) (h : l ≠ []) : pyQuote l ≠ [] := by
  cases l with
  | nil => exact absurd rfl h
  | cons x xs =>
    show quoteChar x ++ pyQuote xs ≠ []
    unfold quoteChar
    split_ifs <;> simp

theorem pyQuote_nil_iff (l : List Char) : pyQuote l = [] ↔ l = [] := by
  constructor
  · intro h
    by_contra hne
    exact pyQuote_ne_nil l hne h
  · intro h
    rw [h]
    rfl

theorem colon_not_mem_quoteChar (c : Char) (hc : ¬(c = ':')) (ha : asciiChar c = true) :
    ':' ∉ quoteChar c := by
  unfold quoteChar
  by_cases hs : quoteSafe c
  · rw [if_pos hs]
    intro hm
    rcases List.mem_cons.mp hm with h | h
    · exact hc h.symm
    · exact absurd h (List.not_mem_nil _)
  · rw [if_neg hs]
    unfold asciiChar at ha
    simp only [decide_eq_true_eq] at ha
    have h1 : c.toNat / 16 < 16 := by omega
    have h2 : c.toNat % 16 < 16 := Nat.mod_lt _ (by omega)
    intro hm
    rcases List.mem_cons.mp hm with h | hm
    · exact absurd h.symm (by decide)
    rcases List.mem_cons.mp hm with h | hm
    · exact (hexDigit_lt16_safe _ h1).2.1 h.symm
    rcases List.mem_cons.mp hm with h | hm
    · exact (hexDigit_lt16_safe _ h2).2.1 h.symm
    · exact absurd hm (List.not_mem_nil _)

theorem colon_not_mem_pyQuote (l : List Char) (h : ':' ∉ l) (ha : l.all asciiChar = true) :
    ':' ∉ pyQuote l := by
  induction l with
  | nil => exact List.not_mem_nil _
  | cons x xs ih =>
    rw [List.all_cons, Bool.and_eq_true] at ha
    show ':' ∉ quoteChar x ++ pyQuote xs
    intro hm
    rcases List.mem_append.mp hm with hm | hm
    · exact colon_not_mem_quoteChar x
        (fun hc => h (by rw [hc]; exact List.mem_cons_self _ _)) ha.1 hm
    · exact ih (fun hm2 => h (List.mem_cons_of_mem x hm2)) ha.2 hm

theorem pyQuote_eq_self_of_all_schemeChar (B : List Char) (h : (pyQuote B).all schemeChar = true) :
    pyQuote B = B := by
  apply pyQuote_fix
  rw [List.all_eq_true]
  intro c hc
  cases hs : quoteSafe c with
  | true => rfl
  | false =>
    exfalso
    have hp : '%' ∈ pyQuote B := by
      have : '%' ∈ quoteChar c := by
        unfold quoteChar
        rw [if_neg (by rw [hs]; exact Bool.false_ne_true)]
        exact List.mem_cons_self _ _
      clear h
      induction B with
      | nil => exact absurd hc (List.not_mem_nil c)
      | cons x xs ih =>
        show '%' ∈ quoteChar x ++ pyQuote xs
        rcases List.mem_cons.mp hc with rfl | hc2
        · exact List.mem_append.mpr (Or.inl this)
        · exact List.mem_append.mpr (Or.inr (ih hc2))
    have := List.all_eq_true.mp h '%' hp
    exact absurd this (by decide)

/-- Quoting cannot manufacture a valid scheme prefix out of an invalid one. -/
theorem schemeValidB_pyQuote_false (P : List Char) (hP : schemeValidB P = false)
    (ha : P.all asciiChar = true) : schemeValidB (pyQuote P) = false := by
  cases hb : breakAt ':' P with
  | mk bef aft =>
    cases aft with
    | none =>
      have hnc : ':' ∉ P := breakAt_none_spec ':' P (by rw [hb])
      have hncq : ':' ∉ pyQuote P := colon_not_mem_pyQuote P hnc ha
      unfold schemeValidB
      rw [breakAt_not_mem ':' (pyQuote P) hncq]
    | some a =>
      rcases breakAt_spec ':' P bef a hb with ⟨hsp, hnm⟩
      have habef : bef.all asciiChar = true := by
        rw [List.all_eq_true]
        intro c hc
        exact List.all_eq_true.mp ha c (hsp ▸ List.mem_append.mpr (Or.inl hc))
      have hq : pyQuote P = pyQuote bef ++ ':' :: pyQuote a := by
        rw [hsp, pyQuote_append]
        have : pyQuote (':' :: a) = ':' :: pyQuote a := by
          show quoteChar ':' ++ pyQuote a = ':' :: pyQuote a
          rfl
        rw [this]
      have hnmq : ':' ∉ pyQuote bef := colon_not_mem_pyQuote bef hnm habef
      unfold schemeValidB
      rw [hq, breakAt_append ':' (pyQuote bef) (pyQuote a) hnmq]
      unfold schemeValidB at hP
      rw [hb] at hP
      have hP2 : schemeCondB bef = false := hP
      cases hcond : schemeCondB (pyQuote bef) with
      | false => exact hcond
      | true =>
        exfalso
        have hself : pyQuote bef = bef := by
          apply pyQuote_eq_self_of_all_schemeChar
          cases hpb : pyQuote bef with
          | nil => rfl
          | cons b bs =>
            have hcb : (isAsciiAlpha b && (b :: bs).all schemeChar) = true := by
              rw [hpb] at hcond
              exact hcond
            rw [Bool.and_eq_true] at hcb
            exact hcb.2
        rw [hself] at hcond
        rw [hcond] at hP2
        exact absurd hP2 (by simp)

/-! ### takeWhile / dropWhile lemmas -/

theorem mem_takeWhile_sub {q : Char → Bool} {x : Char} :
    ∀ {l : List Char}, x ∈ l.takeWhile q → x ∈ l := by
  intro l
  induction l with
  | nil => intro h; exact absurd h (List.not_mem_nil x)
  | cons y ys ih =>
    intro h
    rw [List.takeWhile_cons] at h
    by_cases hy : q y
    · rw [if_pos hy] at h
      rcases List.mem_cons.mp h with rfl | h
      · exact List.mem_cons_self _ _
      · exact List.mem_cons_of_mem y (ih h)
    · rw [if_neg hy] at h
      exact absurd h (List.not_mem_nil x)

theorem mem_takeWhile_pred {q : Char → Bool} {x : Char} :
    ∀ {l : List Char}, x ∈ l.takeWhile q → q x = true := by
  intro l
  induction l with
  | nil => intro h; exact absurd h (List.not_mem_nil x)
  | cons y ys ih =>
    intro h
    rw [List.takeWhile_cons] at h
    by_cases hy : q y
    · rw [if_pos hy] at h
      rcases List.mem_cons.mp h with rfl | h
      · exact hy
      · exact ih h
    · rw [if_neg hy] at h
      exact absurd h (List.not_mem_nil x)

theorem mem_dropWhile_sub {q : Char → Bool} {x : Char} :
    ∀ {l : List Char}, x ∈ l.dropWhile q → x ∈ l := by
  intro l
  induction l with
  | nil => intro h; exact absurd h (List.not_mem_nil x)
  | cons y ys ih =>
    intro h
    rw [List.dropWhile_cons] at h
    by_cases hy : q y
    · rw [if_pos hy] at h
      exact List.mem_cons_of_mem y (ih h)
    · rw [if_neg hy] at h
      exact h

theorem dropWhile_head_false {q : Char → Bool} :
    ∀ {l : List Char} {y : Char} {ys : List Char}, l.dropWhile q = y :: ys → q y = false := by
  intro l
  induction l with
  | nil => intro y ys h; exact absurd h (by simp)
  | cons z zs ih =>
    intro y ys h
    rw [List.dropWhile_cons] at h
    by_cases hz : q z
    · rw [if_pos hz] at h
      exact ih h
    · rw [if_neg hz] at h
      injection h with h1 _
      rw [← h1]
      exact Bool.eq_false_iff.mpr hz

theorem splitNetloc_exact (n R : List Char) (hn : ∀ c ∈ n, netstop c = false)
    (hR : R = [] ∨ ∃ c R', R = c :: R' ∧ netstop c = true) :
    splitNetloc (n ++ R) = (n, R) := by
  induction n with
  | nil =>
    rcases hR with rfl | ⟨c, R', rfl, hc⟩
    · rfl
    · unfold splitNetloc
      rw [List.nil_append, List.takeWhile_cons, List.dropWhile_cons]
      rw [if_neg (by rw [hc]; simp), if_neg (by rw [hc]; simp)]
  | cons x xs ih =>
    have hx : netstop x = false := hn x (List.mem_cons_self x xs)
    have hxs := ih (fun c hc => hn c (List.mem_cons_of_mem x hc))
    unfold splitNetloc at hxs ⊢
    rw [List.cons_append, List.takeWhile_cons, List.dropWhile_cons]
    rw [if_pos (by rw [hx]; rfl), if_pos (by rw [hx]; rfl)]
    injection hxs with h1 h2
    rw [h1, h2]

/-! ### splitParams structure lemmas -/

theorem splitParams_fst_append (P : List Char) : ∃ s, P = (splitParams P).1 ++ s := by
  unfold splitParams
  cases hs : splitAtLast '/' P with
  | none =>
    dsimp only
    cases hb : breakAt ';' P with
    | mk u1 u2 =>
      cases u2 with
      | none => exact ⟨[], by simp⟩
      | some b2 =>
        rcases breakAt_spec ';' P u1 b2 hb with ⟨hsp, _⟩
        refine ⟨';' :: b2, ?_⟩
        dsimp only
        exact hsp
  | some ab =>
    cases ab with
    | mk a b =>
      rcases splitAtLast_spec '/' P a b hs with ⟨hsp, _⟩
      dsimp only
      cases hb : breakAt ';' b with
      | mk b1 b2 =>
        cases b2 with
        | none => exact ⟨[], by simp⟩
        | some c2 =>
          rcases breakAt_spec ';' b b1 c2 hb with ⟨hsp2, _⟩
          refine ⟨';' :: c2, ?_⟩
          dsimp only
          rw [hsp, hsp2, List.append_assoc]
          rfl

theorem splitParams_fst_mem (P : List Char) (x : Char) (h : x ∈ (splitParams P).1) : x ∈ P := by
  rcases splitParams_fst_append P with ⟨s, hsp⟩
  rw [hsp]
  exact List.mem_append.mpr (Or.inl h)

theorem splitParams_snd_mem (P : List Char) (x : Char) (h : x ∈ (splitParams P).2) : x ∈ P := by
  unfold splitParams at h
  cases hs : splitAtLast '/' P with
  | none =>
    rw [hs] at h
    dsimp only at h
    cases hb : breakAt ';' P with
    | mk u1 u2 =>
      rw [hb] at h
      cases u2 with
      | none => exact absurd h (List.not_mem_nil x)
      | some b2 =>
        dsimp only at h
        rcases breakAt_spec ';' P u1 b2 hb with ⟨hsp, _⟩
        rw [hsp]
        exact List.mem_append.mpr (Or.inr (List.mem_cons_of_mem _ h))
  | some ab =>
    cases ab with
    | mk a b =>
      rw [hs] at h
      dsimp only at h
      cases hb : breakAt ';' b with
      | mk b1 b2 =>
        rw [hb] at h
        cases b2 with
        | none => exact absurd h (List.not_mem_nil x)
        | some c2 =>
          dsimp only at h
          rcases splitAtLast_spec '/' P a b hs with ⟨hsp, _⟩
          rcases breakAt_spec ';' b b1 c2 hb with ⟨hsp2, _⟩
          rw [hsp, hsp2]
          refine List.mem_append.mpr (Or.inr (List.mem_cons_of_mem _ ?_))
          exact List.mem_append.mpr (Or.inr (List.mem_cons_of_mem _ h))

theorem splitParams_snd_no_slash (P : List Char) : '/' ∉ (splitParams P).2 := by
  unfold splitParams
  cases hs : splitAtLast '/' P with
  | none =>
    dsimp only
    cases hb : breakAt ';' P with
    | mk u1 u2 =>
      cases u2 with
      | none => exact List.not_mem_nil _
      | some b2 =>
        dsimp only
        rcases breakAt_spec ';' P u1 b2 hb with ⟨hsp, _⟩
        intro hm
        have hmem : '/' ∈ P := by
          rw [hsp]
          exact List.mem_append.mpr (Or.inr (List.mem_cons_of_mem _ hm))
        exact splitAtLast_none_not_mem '/' P hs hmem
  | some ab =>
    cases ab with
    | mk a b =>
      rcases splitAtLast_spec '/' P a b hs with ⟨_, hnb⟩
      dsimp only
      cases hb : breakAt ';' b with
      | mk b1 b2 =>
        cases b2 with
        | none => exact List.not_mem_nil _
        | some c2 =>
          dsimp only
          rcases breakAt_spec ';' b b1 c2 hb with ⟨hsp2, _⟩
          intro hm
          apply hnb
          rw [hsp2]
          exact List.mem_append.mpr (Or.inr (List.mem_cons_of_mem _ hm))

theorem splitParams_fst_ne_nil (P : List Char) (h : P ≠ []) (hh : P.take 1 = ['/']) :
    (splitParams P).1 ≠ [] := by
  unfold splitParams
  cases hs : splitAtLast '/' P with
  | none =>
    dsimp only
    cases hb : breakAt ';' P with
    | mk u1 u2 =>
      cases u2 with
      | none => exact h
      | some b2 =>
        exfalso
        apply splitAtLast_none_not_mem '/' P hs
        cases P with
        | nil => exact absurd rfl h
        | cons x xs =>
          simp only [List.take, List.cons.injEq] at hh
          rw [← hh.1]
          exact List.mem_cons_self x xs
  | some ab =>
    cases ab with
    | mk a b =>
      dsimp only
      cases hb : breakAt ';' b with
      | mk b1 b2 =>
        cases b2 with
        | none => exact h
        | some c2 => simp

theorem splitParams_nil : splitParams [] = ([], []) := rfl

/-! ### removeUnsafe lemmas -/

theorem removeUnsafe_all (l : List Char) : (removeUnsafe l).all (fun c => !unsafeWs c) = true := by
  rw [List.all_eq_true]
  intro c hc
  exact (List.mem_filter.mp hc).2

theorem removeUnsafe_mem (l : List Char) (x : Char) (h : x ∈ removeUnsafe l) : x ∈ l :=
  (List.mem_filter.mp h).1

theorem removeUnsafe_eq_self (l : List Char) (h : ∀ c ∈ l, unsafeWs c = false) :
    removeUnsafe l = l := by
  unfold removeUnsafe
  rw [List.filter_eq_self]
  intro a ha
  rw [h a ha]
  rfl

/-! ### Recovery of the split stages from an unparsed URL -/

theorem fragStage_of (X f : List Char) (hX : '#' ∉ X) :
    fragStage (if f ≠ [] then X ++ '#' :: f else X) = (X, f) := by
  by_cases hf : f ≠ []
  · rw [if_pos hf]
    unfold fragStage
    rw [breakAt_append '#' X f hX]
  · rw [if_neg hf]
    push_neg at hf
    subst hf
    unfold fragStage
    rw [breakAt_not_mem '#' X hX]

theorem queryStage_of (X q : List Char) (hX : '?' ∉ X) :
    queryStage (if q ≠ [] then X ++ '?' :: q else X) = (X, q) := by
  by_cases hq : q ≠ []
  · rw [if_pos hq]
    unfold queryStage
    rw [breakAt_append '?' X q hX]
  · rw [if_neg hq]
    push_neg at hq
    subst hq
    unfold queryStage
    rw [breakAt_not_mem '?' X hX]

theorem append_opt (X c : List Char) (s : Char) :
    (if c ≠ [] then X ++ s :: c else X) = X ++ (if c ≠ [] then s :: c else []) := by
  by_cases hc : c ≠ []
  · rw [if_pos hc, if_pos hc]
  · rw [if_neg hc, if_neg hc, List.append_nil]

theorem netlocStage_pos (z : List Char) :
    netlocStage ('/' :: '/' :: z) = splitNetloc z := by
  unfold netlocStage
  simp [List.take, List.drop]

theorem netlocStage_neg (url2 : List Char) (h : url2.take 2 ≠ ['/', '/']) :
    netlocStage url2 = ([], url2) := by
  unfold netlocStage
  rw [if_neg h]

theorem take2_append_ne (PP R : List Char)
    (hPP : ¬(PP ≠ [] ∧ PP.take 2 = ['/', '/']))
    (hR : R = [] ∨ ∃ c R', R = c :: R' ∧ ¬(c = '/')) :
    (PP ++ R).take 2 ≠ ['/', '/'] := by
  cases PP with
  | nil =>
    rcases hR with rfl | ⟨c, R', rfl, hc⟩
    · simp
    · intro h
      rw [List.nil_append] at h
      cases R' with
      | nil => simp [List.take] at h
      | cons d R2 =>
        simp only [List.take, List.cons.injEq] at h
        exact hc h.1
  | cons c1 t1 =>
    cases t1 with
    | nil =>
      rcases hR with rfl | ⟨c, R', rfl, hc⟩
      · simp [List.take]
      · intro h
        simp only [List.cons_append, List.nil_append, List.take, List.cons.injEq] at h
        exact hc h.2.1
    | cons c2 t2 =>
      intro h
      simp only [List.cons_append, List.take, List.cons.injEq] at h
      exact hPP ⟨by simp, by simp [List.take, h.1, h.2.1]⟩

theorem splitParams_no_semi (P : List Char) (h : ';' ∉ P) : splitParams P = (P, []) := by
  unfold splitParams
  cases hs : splitAtLast '/' P with
  | none =>
    rw [breakAt_not_mem ';' P h]
  | some ab =>
    cases ab with
    | mk a b =>
      rcases splitAtLast_spec '/' P a b hs with ⟨hsp, _⟩
      have hnb : ';' ∉ b := by
        intro hm
        apply h
        rw [hsp]
        exact List.mem_append.mpr (Or.inr (List.mem_cons_of_mem '/' hm))
      dsimp only
      rw [breakAt_not_mem ';' b hnb]

theorem breakAt_fst_not_mem (c : Char) (l : List Char) : c ∉ (breakAt c l).1 := by
  induction l with
  | nil => exact List.not_mem_nil c
  | cons x xs ih =>
    by_cases hx : x = c
    · rw [show breakAt c (x :: xs) = ([], some xs) from by rw [hx]; exact breakAt_cons_self c xs]
      exact List.not_mem_nil c
    · rw [breakAt_cons_ne c x xs hx]
      intro hm
      rcases List.mem_cons.mp hm with hc | hc
      · exact hx hc.symm
      · exact ih hc

theorem breakAt_fst_mem (c x : Char) (l : List Char) (h : x ∈ (breakAt c l).1) : x ∈ l := by
  induction l with
  | nil => exact absurd h (List.not_mem_nil x)
  | cons y ys ih =>
    by_cases hy : y = c
    · rw [show breakAt c (y :: ys) = ([], some ys) from by rw [hy]; exact breakAt_cons_self c ys]
        at h
      exact absurd h (List.not_mem_nil x)
    · rw [breakAt_cons_ne c y ys hy] at h
      rcases List.mem_cons.mp h with hc | hc
      · rw [hc]; exact List.mem_cons_self y ys
      · exact List.mem_cons_of_mem y (ih hc)

theorem breakAt_snd_mem (c x : Char) (l aft : List Char) (h : (breakAt c l).2 = some aft)
    (hx : x ∈ aft) : x ∈ l := by
  cases hb : breakAt c l with
  | mk b1 b2 =>
    rw [hb] at h
    cases b2 with
    | none => simp at h
    | some a2 =>
      have : a2 = aft := by injection h
      subst this
      rcases breakAt_spec c l b1 a2 hb with ⟨hsp, _⟩
      rw [hsp]
      exact List.mem_append.mpr (Or.inr (List.mem_cons_of_mem c hx))

theorem breakAt_none_fst (c : Char) (l : List Char) (h : (breakAt c l).2 = none) :
    (breakAt c l).1 = l := by
  have := breakAt_not_mem c l (breakAt_none_spec c l h)
  rw [this]

theorem breakAt_fst_append (c : Char) (l : List Char) : ∃ s, l = (breakAt c l).1 ++ s := by
  cases hb : breakAt c l with
  | mk b1 b2 =>
    cases b2 with
    | none =>
      refine ⟨[], ?_⟩
      have h2 := breakAt_none_fst c l (by rw [hb])
      rw [hb] at h2
      rw [List.append_nil]
      exact h2.symm
    | some aft =>
      rcases breakAt_spec c l b1 aft hb with ⟨hsp, _⟩
      exact ⟨c :: aft, hsp⟩

theorem splitParams_pair (A B : List Char) (hA : ';' ∉ A) (hB : '/' ∉ B) :
    splitParams (A ++ ';' :: B) = (A, B) := by
  unfold splitParams
  by_cases hslash : '/' ∈ A
  · cases hs : splitAtLast '/' A with
    | none => exact absurd hslash (splitAtLast_none_not_mem '/' A hs)
    | some a12 =>
      cases a12 with
      | mk A1 A2 =>
        rcases splitAtLast_spec '/' A A1 A2 hs with ⟨hsp, hnm2⟩
        have hwhole : A ++ ';' :: B = A1 ++ '/' :: (A2 ++ ';' :: B) := by
          rw [hsp, List.append_assoc]
          rfl
        have hnm3 : '/' ∉ A2 ++ ';' :: B := by
          intro hm
          rcases List.mem_append.mp hm with hm | hm
          · exact hnm2 hm
          · rcases List.mem_cons.mp hm with hc | hc
            · exact absurd hc (by decide)
            · exact hB hc
        have hA2 : ';' ∉ A2 := by
          intro hm
          apply hA
          rw [hsp]
          exact List.mem_append.mpr (Or.inr (List.mem_cons_of_mem '/' hm))
        rw [hwhole, splitAtLast_exact '/' A1 (A2 ++ ';' :: B) hnm3]
        dsimp only
        rw [breakAt_append ';' A2 B hA2, hsp]
  · have hnm : '/' ∉ A ++ ';' :: B := by
      intro hm
      rcases List.mem_append.mp hm with hm | hm
      · exact hslash hm
      · rcases List.mem_cons.mp hm with hc | hc
        · exact absurd hc (by decide)
        · exact hB hc
    rw [splitAtLast_not_mem '/' _ hnm, breakAt_append ';' A B hA]

/-! ### Normal forms of `pyUrlunsplit` -/

theorem pyUrlunsplit_pos (s n PP q f : List Char)
    (hnb : n ≠ [] ∨ (PP ≠ [] ∧ PP.take 2 = ['/', '/']))
    (hprep : ¬(PP ≠ [] ∧ PP.take 1 ≠ ['/'])) :
    pyUrlunsplit ⟨s, n, PP, q, f⟩ =
      (if s ≠ [] then s ++ [':'] else []) ++ '/' :: '/' :: (n ++ PP)
        ++ (if q ≠ [] then '?' :: q else [])
        ++ (if f ≠ [] then '#' :: f else []) := by
  unfold pyUrlunsplit
  dsimp only
  rw [if_neg hprep, if_pos hnb]
  by_cases hs : s ≠ [] <;> by_cases hq : q ≠ [] <;> by_cases hf : f ≠ [] <;>
    simp [hs, hq, hf, List.append_assoc]

theorem pyUrlunsplit_neg (s n PP q f : List Char)
    (hnb : ¬(n ≠ [] ∨ (PP ≠ [] ∧ PP.take 2 = ['/', '/']))) :
    pyUrlunsplit ⟨s, n, PP, q, f⟩ =
      (if s ≠ [] then s ++ [':'] else []) ++ PP
        ++ (if q ≠ [] then '?' :: q else [])
        ++ (if f ≠ [] then '#' :: f else []) := by
  unfold pyUrlunsplit
  dsimp only
  rw [if_neg hnb]
  by_cases hs : s ≠ [] <;> by_cases hq : q ≠ [] <;> by_cases hf : f ≠ [] <;>
    simp [hs, hq, hf, List.append_assoc]

/-! ### Reparsing the tail of an unsplit URL -/

theorem mem_if_opt {c s : Char} {l : List Char}
    (h : c ∈ (if l ≠ [] then s :: l else [])) : c = s ∨ c ∈ l := by
  by_cases hl : l ≠ []
  · rw [if_pos hl] at h
    exact List.mem_cons.mp h
  · rw [if_neg hl] at h
    simp at h

theorem ws_free_qf (q f : List Char)
    (hq : ∀ c ∈ q, unsafeWs c = false) (hf : ∀ c ∈ f, unsafeWs c = false) :
    ∀ c ∈ (if q ≠ [] then '?' :: q else []) ++ (if f ≠ [] then '#' :: f else []),
      unsafeWs c = false := by
  intro c hc
  rcases List.mem_append.mp hc with hm | hm
  · rcases mem_if_opt hm with rfl | hm2
    · decide
    · exact hq c hm2
  · rcases mem_if_opt hm with rfl | hm2
    · decide
    · exact hf c hm2

theorem parseQF (X q f : List Char) (hXq : '?' ∉ X) (hXh : '#' ∉ X) (hqh : '#' ∉ q) :
    fragStage (X ++ (if q ≠ [] then '?' :: q else []) ++ (if f ≠ [] then '#' :: f else []))
      = (X ++ (if q ≠ [] then '?' :: q else []), f) ∧
    queryStage (X ++ (if q ≠ [] then '?' :: q else [])) = (X, q) := by
  constructor
  · have hX2 : '#' ∉ X ++ (if q ≠ [] then '?' :: q else []) := by
      intro hm
      rcases List.mem_append.mp hm with hm | hm
      · exact hXh hm
      · rcases mem_if_opt hm with he | hm2
        · exact absurd he (by decide)
        · exact hqh hm2
    have hform : X ++ (if q ≠ [] then '?' :: q else []) ++ (if f ≠ [] then '#' :: f else [])
        = (if f ≠ [] then (X ++ (if q ≠ [] then '?' :: q else [])) ++ '#' :: f
           else X ++ (if q ≠ [] then '?' :: q else [])) := by
      by_cases hf0 : f ≠ [] <;> simp [hf0]
    rw [hform]
    exact fragStage_of _ f hX2
  · rw [← append_opt X q '?']
    exact queryStage_of X q hXq

theorem parseNet_pos (n PP q f : List Char)
    (hn : ∀ c ∈ n, netstop c = false)
    (hPPhead : PP = [] ∨ PP.take 1 = ['/']) :
    netlocStage ('/' :: '/' :: (n ++ PP)
        ++ (if q ≠ [] then '?' :: q else []) ++ (if f ≠ [] then '#' :: f else []))
      = (n, PP ++ (if q ≠ [] then '?' :: q else []) ++ (if f ≠ [] then '#' :: f else [])) := by
  have hre : '/' :: '/' :: (n ++ PP)
        ++ (if q ≠ [] then '?' :: q else []) ++ (if f ≠ [] then '#' :: f else [])
      = '/' :: '/' :: (n ++ (PP ++ (if q ≠ [] then '?' :: q else [])
          ++ (if f ≠ [] then '#' :: f else []))) := by
    simp [List.append_assoc]
  rw [hre, netlocStage_pos]
  apply splitNetloc_exact n _ hn
  rcases hPPhead with rfl | h1
  · by_cases hq0 : q ≠ []
    · right
      rw [if_pos hq0]
      exact ⟨'?', q ++ (if f ≠ [] then '#' :: f else []), by simp, by decide⟩
    · rw [if_neg hq0]
      by_cases hf0 : f ≠ []
      · right
        rw [if_pos hf0]
        exact ⟨'#', f, by simp, by decide⟩
      · left
        rw [if_neg hf0]
        rfl
  · right
    cases PP with
    | nil => simp [List.take] at h1
    | cons a t =>
      have ha : a = '/' := by simpa [List.take] using h1
      subst ha
      exact ⟨'/', t ++ (if q ≠ [] then '?' :: q else []) ++ (if f ≠ [] then '#' :: f else []),
        by simp [List.append_assoc], by decide⟩

theorem parseNet_neg (PP q f : List Char)
    (hPP2 : ¬(PP ≠ [] ∧ PP.take 2 = ['/', '/'])) :
    netlocStage (PP ++ (if q ≠ [] then '?' :: q else []) ++ (if f ≠ [] then '#' :: f else []))
      = ([], PP ++ (if q ≠ [] then '?' :: q else []) ++ (if f ≠ [] then '#' :: f else [])) := by
  apply netlocStage_neg
  rw [List.append_assoc]
  apply take2_append_ne PP _ hPP2
  by_cases hq0 : q ≠ []
  · right
    rw [if_pos hq0]
    exact ⟨'?', q ++ (if f ≠ [] then '#' :: f else []), by simp, by decide⟩
  · rw [if_neg hq0, List.nil_append]
    by_cases hf0 : f ≠ []
    · right
      rw [if_pos hf0]
      exact ⟨'#', f, rfl, by decide⟩
    · left
      rw [if_neg hf0]

theorem splitParams_of (path params : List Char)
    (hsemi : ';' ∉ path) (hslash : '/' ∉ params) :
    splitParams (if params ≠ [] then path ++ ';' :: params else path) = (path, params) := by
  by_cases hp : params ≠ []
  · rw [if_pos hp]
    exact splitParams_pair path params hsemi hslash
  · rw [if_neg hp]
    push_neg at hp
    subst hp
    exact splitParams_no_semi path hsemi

theorem pyUrlsplit_steps (dflt url s rest2 n rest3 x1 f PPv q : List Char)
    (h0 : removeUnsafe url = url)
    (h0d : removeUnsafe dflt = dflt)
    (h1 : extractScheme dflt url = (s, rest2))
    (h2 : netlocStage rest2 = (n, rest3))
    (h3 : fragStage rest3 = (x1, f))
    (h4 : queryStage x1 = (PPv, q)) :
    pyUrlsplit dflt url = ⟨s, n, PPv, q, f⟩ := by
  unfold pyUrlsplit
  dsimp only
  rw [h0, h0d, h1]
  dsimp only
  rw [h2]
  dsimp only
  rw [h3]
  dsimp only
  rw [h4]

/-- Round trip at the `urlsplit` level: reparsing an unsplit URL recovers the
parts, given the character-level wellformedness each field enjoys when it came
out of `urlsplit`. -/
theorem split_unsplit (scheme netloc PP query fragment : List Char)
    (hsch : scheme = [] ∨ (isAsciiAlpha scheme.headI = true ∧
      scheme.all schemeChar = true ∧ scheme.map lowerChar = scheme))
    (hnet : ∀ c ∈ netloc, netstop c = false ∧ unsafeWs c = false)
    (hPPq : '?' ∉ PP) (hPPh : '#' ∉ PP) (hPPws : ∀ c ∈ PP, unsafeWs c = false)
    (hqh : '#' ∉ query) (hqws : ∀ c ∈ query, unsafeWs c = false)
    (hfws : ∀ c ∈ fragment, unsafeWs c = false)
    (h7 : scheme = [] → netloc = [] → PP.take 2 ≠ ['/', '/'] → schemeValidB PP = false)
    (h8 : netloc ≠ [] → PP = [] ∨ PP.take 1 = ['/']) :
    pyUrlsplit [] (pyUrlunsplit ⟨scheme, netloc, PP, query, fragment⟩) =
      ⟨scheme, netloc, PP, query, fragment⟩ := by
  have hqf := parseQF PP query fragment hPPq hPPh hqh
  by_cases hnb : netloc ≠ [] ∨ (PP ≠ [] ∧ PP.take 2 = ['/', '/'])
  · have hprep : ¬(PP ≠ [] ∧ PP.take 1 ≠ ['/']) := by
      rintro ⟨hne, h1⟩
      rcases hnb with hn | ⟨hne2, h2⟩
      · rcases h8 hn with rfl | ht
        · exact hne rfl
        · exact h1 ht
      · apply h1
        cases PP with
        | nil => exact absurd rfl hne
        | cons a t =>
          cases t with
          | nil => simp [List.take] at h2
          | cons b t2 =>
            simp only [List.take, List.cons.injEq] at h2
            simp [List.take, h2.1]
    have hPPhead : PP = [] ∨ PP.take 1 = ['/'] := by
      by_cases h0 : PP = []
      · exact Or.inl h0
      · right
        by_contra hne
        exact hprep ⟨h0, hne⟩
    rw [pyUrlunsplit_pos scheme netloc PP query fragment hnb hprep]
    have hnet1 : ∀ c ∈ netloc, netstop c = false := fun c hc => (hnet c hc).1
    have hwsT : ∀ c ∈ '/' :: '/' :: (netloc ++ PP)
        ++ (if query ≠ [] then '?' :: query else [])
        ++ (if fragment ≠ [] then '#' :: fragment else []), unsafeWs c = false := by
      intro c hc
      rw [List.append_assoc] at hc
      rcases List.mem_append.mp hc with h1 | h1
      · rcases List.mem_cons.mp h1 with rfl | h1
        · decide
        · rcases List.mem_cons.mp h1 with rfl | h1
          · decide
          · rcases List.mem_append.mp h1 with h1 | h1
            · exact (hnet c h1).2
            · exact hPPws c h1
      · exact ws_free_qf query fragment hqws hfws c h1
    by_cases hs0 : scheme = []
    · subst hs0
      rw [if_neg (by simp), List.nil_append]
      apply pyUrlsplit_steps [] _ [] _ netloc _ _ fragment PP query
      · exact removeUnsafe_eq_self _ hwsT
      · rfl
      · apply extractScheme_invalid
        rw [List.cons_append, List.cons_append]
        exact schemeValidB_cons_bad '/' _ (by decide) (by decide)
      · exact parseNet_pos netloc PP query fragment hnet1 hPPhead
      · exact hqf.1
      · exact hqf.2
    · rcases hsch with h | ⟨ha, hall, hmap⟩
      · exact absurd h hs0
      rw [if_pos hs0]
      have hcol : ':' ∉ scheme := not_mem_of_all hall (by decide)
      have hwsS : ∀ c ∈ scheme, unsafeWs c = false := fun c hc =>
        schemeChar_not_ws c (List.all_eq_true.mp hall c hc)
      have hre : (scheme ++ [':']) ++ '/' :: '/' :: (netloc ++ PP)
          ++ (if query ≠ [] then '?' :: query else [])
          ++ (if fragment ≠ [] then '#' :: fragment else [])
        = scheme ++ ':' :: ('/' :: '/' :: (netloc ++ PP)
          ++ (if query ≠ [] then '?' :: query else [])
          ++ (if fragment ≠ [] then '#' :: fragment else [])) := by
        simp [List.append_assoc]
      rw [hre]
      apply pyUrlsplit_steps [] _ scheme _ netloc _ _ fragment PP query
      · apply removeUnsafe_eq_self
        intro c hc
        rcases List.mem_append.mp hc with h1 | h1
        · exact hwsS c h1
        · rcases List.mem_cons.mp h1 with rfl | h1
          · decide
          · exact hwsT c h1
      · rfl
      · rw [extractScheme_valid_shape [] scheme _ ha hall hs0 hcol, hmap]
      · exact parseNet_pos netloc PP query fragment hnet1 hPPhead
      · exact hqf.1
      · exact hqf.2
  · push_neg at hnb
    have hn0 : netloc = [] := hnb.1
    subst hn0
    have hPP2 : ¬(PP ≠ [] ∧ PP.take 2 = ['/', '/']) := by
      rintro ⟨hne, ht⟩
      exact (hnb.2 hne) ht
    rw [pyUrlunsplit_neg scheme [] PP query fragment (by push_neg; exact ⟨rfl, hnb.2⟩)]
    have hwsT : ∀ c ∈ PP ++ (if query ≠ [] then '?' :: query else [])
        ++ (if fragment ≠ [] then '#' :: fragment else []), unsafeWs c = false := by
      intro c hc
      rw [List.append_assoc] at hc
      rcases List.mem_append.mp hc with h1 | h1
      · exact hPPws c h1
      · exact ws_free_qf query fragment hqws hfws c h1
    by_cases hs0 : scheme = []
    · subst hs0
      rw [if_neg (by simp), List.nil_append]
      have hvPP : schemeValidB PP = false := by
        by_cases h0 : PP = []
        · subst h0
          exact schemeValidB_nil
        · apply h7 rfl rfl
          intro ht
          exact hPP2 ⟨h0, ht⟩
      apply pyUrlsplit_steps [] _ [] _ [] _ _ fragment PP query
      · exact removeUnsafe_eq_self _ hwsT
      · rfl
      · apply extractScheme_invalid
        apply schemeValidB_append_bad
        · apply schemeValidB_append_bad _ _ hvPP
          by_cases hq0 : query ≠ []
          · right
            rw [if_pos hq0]
            exact ⟨'?', query, rfl, by decide, by decide⟩
          · left
            rw [if_neg hq0]
        · by_cases hf0 : fragment ≠ []
          · right
            rw [if_pos hf0]
            exact ⟨'#', fragment, rfl, by decide, by decide⟩
          · left
            rw [if_neg hf0]
      · exact parseNet_neg PP query fragment hPP2
      · exact hqf.1
      · exact hqf.2
    · rcases hsch with h | ⟨ha, hall, hmap⟩
      · exact absurd h hs0
      rw [if_pos hs0]
      have hcol : ':' ∉ scheme := not_mem_of_all hall (by decide)
      have hwsS : ∀ c ∈ scheme, unsafeWs c = false := fun c hc =>
        schemeChar_not_ws c (List.all_eq_true.mp hall c hc)
      have hre : (scheme ++ [':']) ++ PP
          ++ (if query ≠ [] then '?' :: query else [])
          ++ (if fragment ≠ [] then '#' :: fragment else [])
        = scheme ++ ':' :: (PP
          ++ (if query ≠ [] then '?' :: query else [])
          ++ (if fragment ≠ [] then '#' :: fragment else [])) := by
        simp [List.append_assoc]
      rw [hre]
      apply pyUrlsplit_steps [] _ scheme _ [] _ _ fragment PP query
      · apply removeUnsafe_eq_self
        intro c hc
        rcases List.mem_append.mp hc with h1 | h1
        · exact hwsS c h1
        · rcases List.mem_cons.mp h1 with rfl | h1
          · decide
          · exact hwsT c h1
      · rfl
      · rw [extractScheme_valid_shape [] scheme _ ha hall hs0 hcol, hmap]
      · exact parseNet_neg PP query fragment hPP2
      · exact hqf.1
      · exact hqf.2

/-! ### Round trip at the `urlparse` level -/

theorem take2_slash_append (path T : List Char) (h : path.take 2 = ['/', '/']) :
    (path ++ T).take 2 = ['/', '/'] := by
  cases path with
  | nil => simp at h
  | cons a t =>
    cases t with
    | nil => simp [List.take] at h
    | cons b t2 =>
      simp only [List.take, List.cons.injEq] at h
      simp [List.take, List.cons_append, h.1, h.2.1]

theorem take1_slash_append (path T : List Char) (h : path.take 1 = ['/']) :
    (path ++ T).take 1 = ['/'] := by
  cases path with
  | nil => simp at h
  | cons a t =>
    simp only [List.take, List.cons.injEq] at h
    simp [List.take, List.cons_append, h.1]

theorem not_mem_ppx {x : Char} {path params : List Char}
    (h1 : x ∉ path) (h2 : x ∉ params) (hx : ¬(x = ';')) :
    x ∉ (if params ≠ [] then path ++ ';' :: params else path) := by
  intro hm
  by_cases hp : params ≠ []
  · rw [if_pos hp] at hm
    rcases List.mem_append.mp hm with h | h
    · exact h1 h
    · rcases List.mem_cons.mp h with h | h
      · exact hx h
      · exact h2 h
  · rw [if_neg hp] at hm
    exact h1 hm

/-- Round trip at the `urlparse` level: `urlparse (urlunparse parts) = parts`
whenever the six components satisfy the character-level wellformedness that
holds of any `urlparse` output whose path has been percent-quoted. -/
theorem parse_unparse (scheme netloc path params query fragment : List Char)
    (hsch : scheme = [] ∨ (isAsciiAlpha scheme.headI = true ∧
      scheme.all schemeChar = true ∧ scheme.map lowerChar = scheme))
    (hnet : ∀ c ∈ netloc, netstop c = false ∧ unsafeWs c = false)
    (h3 : path.all quoteSafe = true)
    (h4s : '/' ∉ params) (h4q : '?' ∉ params) (h4h : '#' ∉ params)
    (h4ws : ∀ c ∈ params, unsafeWs c = false)
    (hqh : '#' ∉ query) (hqws : ∀ c ∈ query, unsafeWs c = false)
    (hfws : ∀ c ∈ fragment, unsafeWs c = false)
    (h7 : scheme = [] → netloc = [] → path.take 2 ≠ ['/', '/'] →
      schemeValidB path = false)
    (h8 : netloc ≠ [] → path = [] ∨ path.take 1 = ['/'])
    (h9 : netloc ≠ [] → path = [] → params = []) :
    pyUrlparse [] (pyUrlunparse ⟨scheme, netloc, path, params, query, fragment⟩) =
      ⟨scheme, netloc, path, params, query, fragment⟩ := by
  have hpq : '?' ∉ path := not_mem_of_all h3 (by decide)
  have hph : '#' ∉ path := not_mem_of_all h3 (by decide)
  have hsemi : ';' ∉ path := not_mem_of_all h3 (by decide)
  have hpws : ∀ c ∈ path, unsafeWs c = false := fun c hc =>
    quoteSafe_not_ws c (List.all_eq_true.mp h3 c hc)
  have hPPq : '?' ∉ (if params ≠ [] then path ++ ';' :: params else path) :=
    not_mem_ppx hpq h4q (by decide)
  have hPPh : '#' ∉ (if params ≠ [] then path ++ ';' :: params else path) :=
    not_mem_ppx hph h4h (by decide)
  have hPPws : ∀ c ∈ (if params ≠ [] then path ++ ';' :: params else path),
      unsafeWs c = false := by
    intro c hc
    by_cases hp : params ≠ []
    · rw [if_pos hp] at hc
      rcases List.mem_append.mp hc with h | h
      · exact hpws c h
      · rcases List.mem_cons.mp h with rfl | h
        · decide
        · exact h4ws c h
    · rw [if_neg hp] at hc
      exact hpws c hc
  have h7PP : scheme = [] → netloc = [] →
      (if params ≠ [] then path ++ ';' :: params else path).take 2 ≠ ['/', '/'] →
      schemeValidB (if params ≠ [] then path ++ ';' :: params else path) = false := by
    intro hs hn ht
    have hpt : path.take 2 ≠ ['/', '/'] := by
      intro hp2
      apply ht
      by_cases hp : params ≠ []
      · rw [if_pos hp]
        exact take2_slash_append path _ hp2
      · rw [if_neg hp]
        exact hp2
    have hvp := h7 hs hn hpt
    by_cases hp : params ≠ []
    · rw [if_pos hp]
      exact schemeValidB_append_bad path (';' :: params) hvp
        (Or.inr ⟨';', params, rfl, by decide, by decide⟩)
    · rw [if_neg hp]
      exact hvp
  have h8PP : netloc ≠ [] →
      (if params ≠ [] then path ++ ';' :: params else path) = [] ∨
      (if params ≠ [] then path ++ ';' :: params else path).take 1 = ['/'] := by
    intro hn
    rcases h8 hn with hp0 | h1
    · left
      rw [h9 hn hp0, hp0]
      simp
    · right
      by_cases hp : params ≠ []
      · rw [if_pos hp]
        exact take1_slash_append path _ h1
      · rw [if_neg hp]
        exact h1
  have hmain := split_unsplit scheme netloc
    (if params ≠ [] then path ++ ';' :: params else path) query fragment
    hsch hnet hPPq hPPh hPPws hqh hqws hfws h7PP h8PP
  have hun : pyUrlunparse ⟨scheme, netloc, path, params, query, fragment⟩ =
      pyUrlunsplit ⟨scheme, netloc,
        (if params ≠ [] then path ++ ';' :: params else path), query, fragment⟩ := rfl
  rw [hun]
  unfold pyUrlparse
  dsimp only
  rw [hmain]
  dsimp only
  rw [splitParams_of path params hsemi h4s]

/-! ### Structural facts about the output of `pyUrlparse` -/

theorem fragStage_facts (r3 : List Char) :
    '#' ∉ (fragStage r3).1 ∧ (∃ s, r3 = (fragStage r3).1 ++ s) ∧
    (∀ c ∈ (fragStage r3).2, c ∈ r3) := by
  unfold fragStage
  cases hb : breakAt '#' r3 with
  | mk bef o =>
    cases o with
    | none =>
      dsimp only
      have hfst := breakAt_none_fst '#' r3 (by rw [hb])
      rw [hb] at hfst
      dsimp only at hfst
      refine ⟨?_, ⟨[], by rw [hfst, List.append_nil]⟩, ?_⟩
      · have := breakAt_fst_not_mem '#' r3
        rw [hb] at this
        exact this
      · intro c hc
        exact absurd hc (List.not_mem_nil c)
    | some a =>
      dsimp only
      refine ⟨?_, ⟨'#' :: a, (breakAt_spec '#' r3 bef a hb).1⟩, ?_⟩
      · have := breakAt_fst_not_mem '#' r3
        rw [hb] at this
        exact this
      · intro c hc
        exact breakAt_snd_mem '#' c r3 a (by rw [hb]) hc

theorem queryStage_facts (x1 : List Char) :
    '?' ∉ (queryStage x1).1 ∧ (∃ s, x1 = (queryStage x1).1 ++ s) ∧
    (∀ c ∈ (queryStage x1).2, c ∈ x1) := by
  unfold queryStage
  cases hb : breakAt '?' x1 with
  | mk bef o =>
    cases o with
    | none =>
      dsimp only
      have hfst := breakAt_none_fst '?' x1 (by rw [hb])
      rw [hb] at hfst
      dsimp only at hfst
      refine ⟨?_, ⟨[], by rw [hfst, List.append_nil]⟩, ?_⟩
      · have := breakAt_fst_not_mem '?' x1
        rw [hb] at this
        exact this
      · intro c hc
        exact absurd hc (List.not_mem_nil c)
    | some a =>
      dsimp only
      refine ⟨?_, ⟨'?' :: a, (breakAt_spec '?' x1 bef a hb).1⟩, ?_⟩
      · have := breakAt_fst_not_mem '?' x1
        rw [hb] at this
        exact this
      · intro c hc
        exact breakAt_snd_mem '?' c x1 a (by rw [hb]) hc

theorem netlocStage_facts (r2 : List Char) :
    (∀ c ∈ (netlocStage r2).1, netstop c = false ∧ c ∈ r2) ∧
    (∀ c ∈ (netlocStage r2).2, c ∈ r2) ∧
    (r2.take 2 = ['/', '/'] →
      (netlocStage r2).2 = [] ∨
      ∃ y ys, (netlocStage r2).2 = y :: ys ∧ netstop y = true) ∧
    (r2.take 2 ≠ ['/', '/'] → (netlocStage r2).1 = [] ∧ (netlocStage r2).2 = r2) := by
  unfold netlocStage
  by_cases ht : r2.take 2 = ['/', '/']
  · rw [if_pos ht]
    unfold splitNetloc
    dsimp only
    refine ⟨?_, ?_, ?_, fun hc => absurd ht hc⟩
    · intro c hc
      refine ⟨?_, ?_⟩
      · have := mem_takeWhile_pred hc
        simpa using this
      · exact List.drop_subset 2 r2 (mem_takeWhile_sub hc)
    · intro c hc
      exact List.drop_subset 2 r2 (mem_dropWhile_sub hc)
    · intro _
      cases hd : (r2.drop 2).dropWhile (fun c => !netstop c) with
      | nil => exact Or.inl rfl
      | cons y ys =>
        right
        refine ⟨y, ys, rfl, ?_⟩
        have := dropWhile_head_false hd
        simpa using this
  · rw [if_neg ht]
    refine ⟨?_, fun c hc => hc, fun hc => absurd hc ht, fun _ => ⟨rfl, rfl⟩⟩
    intro c hc
    exact absurd hc (List.not_mem_nil c)

theorem schemeValid_decomp (u : List Char) (h : schemeValidB u = true) :
    ∃ bef aft, u = bef ++ ':' :: aft ∧ bef ≠ [] ∧ ':' ∉ bef ∧
      isAsciiAlpha bef.headI = true ∧ bef.all schemeChar = true ∧
      extractScheme [] u = (bef.map lowerChar, aft) := by
  unfold schemeValidB at h
  cases hb : breakAt ':' u with
  | mk bef o =>
    rw [hb] at h
    cases o with
    | none => exact absurd h (by simp)
    | some aft =>
      cases bef with
      | nil => exact absurd h (by simp [schemeCondB])
      | cons b bs =>
        have hcond : (isAsciiAlpha b && (b :: bs).all schemeChar) = true := h
        rw [Bool.and_eq_true] at hcond
        rcases breakAt_spec ':' u (b :: bs) aft hb with ⟨hsp, hnm⟩
        refine ⟨b :: bs, aft, hsp, by simp, hnm, ?_, hcond.2, ?_⟩
        · simpa [List.headI] using hcond.1
        · unfold extractScheme
          rw [hb]
          dsimp only
          rw [if_pos (by rw [Bool.and_eq_true]; exact hcond)]

theorem map_lower_idem (l : List Char) :
    (l.map lowerChar).map lowerChar = l.map lowerChar := by
  induction l with
  | nil => rfl
  | cons c t ih =>
    simp only [List.map]
    rw [lowerChar_idem, ih]

theorem pyUrlparse_unfold (u : List Char) :
    pyUrlparse [] u =
      ⟨(extractScheme [] (removeUnsafe u)).1,
       (netlocStage (extractScheme [] (removeUnsafe u)).2).1,
       (splitParams (queryStage (fragStage
         (netlocStage (extractScheme [] (removeUnsafe u)).2).2).1).1).1,
       (splitParams (queryStage (fragStage
         (netlocStage (extractScheme [] (removeUnsafe u)).2).2).1).1).2,
       (queryStage (fragStage
         (netlocStage (extractScheme [] (removeUnsafe u)).2).2).1).2,
       (fragStage (netlocStage (extractScheme [] (removeUnsafe u)).2).2).2⟩ := rfl

/-- Every component of a `urlparse` output is built from characters of the
whitespace-stripped input, and satisfies the delimiter-freedom and shape
invariants used by the unparse round trip. -/
theorem parse_shape (u : List Char) :
    ((pyUrlparse [] u).scheme = [] ∨
      (isAsciiAlpha (pyUrlparse [] u).scheme.headI = true ∧
       (pyUrlparse [] u).scheme.all schemeChar = true ∧
       (pyUrlparse [] u).scheme.map lowerChar = (pyUrlparse [] u).scheme)) ∧
    (∀ c ∈ (pyUrlparse [] u).netloc, netstop c = false ∧ c ∈ removeUnsafe u) ∧
    ('?' ∉ (pyUrlparse [] u).path ∧ '#' ∉ (pyUrlparse [] u).path ∧
      ∀ c ∈ (pyUrlparse [] u).path, c ∈ removeUnsafe u) ∧
    ('/' ∉ (pyUrlparse [] u).params ∧ '?' ∉ (pyUrlparse [] u).params ∧
      '#' ∉ (pyUrlparse [] u).params ∧
      ∀ c ∈ (pyUrlparse [] u).params, c ∈ removeUnsafe u) ∧
    ('#' ∉ (pyUrlparse [] u).query ∧
      ∀ c ∈ (pyUrlparse [] u).query, c ∈ removeUnsafe u) ∧
    (∀ c ∈ (pyUrlparse [] u).fragment, c ∈ removeUnsafe u) ∧
    ((pyUrlparse [] u).scheme = [] → (pyUrlparse [] u).netloc = [] →
      schemeValidB (pyUrlparse [] u).path = false) ∧
    ((pyUrlparse [] u).netloc ≠ [] →
      (pyUrlparse [] u).path = [] ∨ (pyUrlparse [] u).path.take 1 = ['/']) ∧
    ((pyUrlparse [] u).netloc ≠ [] → (pyUrlparse [] u).path = [] →
      (pyUrlparse [] u).params = []) := by
  rw [pyUrlparse_unfold u]
  dsimp only
  obtain ⟨s, r2, hES⟩ : ∃ s r2, extractScheme [] (removeUnsafe u) = (s, r2) :=
    ⟨_, _, rfl⟩
  rw [hES]
  dsimp only
  obtain ⟨n, r3, hNL⟩ : ∃ n r3, netlocStage r2 = (n, r3) := ⟨_, _, rfl⟩
  rw [hNL]
  dsimp only
  obtain ⟨x1, f, hFS⟩ : ∃ x1 f, fragStage r3 = (x1, f) := ⟨_, _, rfl⟩
  rw [hFS]
  dsimp only
  obtain ⟨PPv, q, hQS⟩ : ∃ PPv q, queryStage x1 = (PPv, q) := ⟨_, _, rfl⟩
  rw [hQS]
  dsimp only
  obtain ⟨path, params, hSP⟩ : ∃ path params, splitParams PPv = (path, params) :=
    ⟨_, _, rfl⟩
  rw [hSP]
  dsimp only
  have hsfacts : (s = [] ∧ r2 = removeUnsafe u ∧
      schemeValidB (removeUnsafe u) = false) ∨
      (s ≠ [] ∧ (∀ c ∈ r2, c ∈ removeUnsafe u) ∧
        isAsciiAlpha s.headI = true ∧ s.all schemeChar = true ∧
        s.map lowerChar = s) := by
    by_cases hvs : schemeValidB (removeUnsafe u) = true
    · right
      rcases schemeValid_decomp _ hvs with ⟨bef, aft, hu1, hbne, hcol, halpha, hall, hse⟩
      rw [hES] at hse
      injection hse with hse1 hse2
      subst hse1
      subst hse2
      refine ⟨?_, ?_, ?_, ?_, map_lower_idem bef⟩
      · intro h0
        rw [List.map_eq_nil] at h0
        exact hbne h0
      · intro c hc
        rw [hu1]
        exact List.mem_append.mpr (Or.inr (List.mem_cons_of_mem ':' hc))
      · cases bef with
        | nil => exact absurd rfl hbne
        | cons b bs =>
          have hb : isAsciiAlpha b = true := by simpa [List.headI] using halpha
          show isAsciiAlpha (List.headI (List.map lowerChar (b :: bs))) = true
          simp only [List.map, List.headI]
          exact isAsciiAlpha_of_lower (lowerChar b) (isAsciiLower_lowerChar b hb)
      · rw [List.all_eq_true]
        intro c hc
        rw [List.mem_map] at hc
        rcases hc with ⟨x, hx, rfl⟩
        exact schemeChar_lowerChar x (List.all_eq_true.mp hall x hx)
    · left
      have hvsf : schemeValidB (removeUnsafe u) = false := by
        revert hvs
        cases schemeValidB (removeUnsafe u) <;> simp
      have hinv := extractScheme_invalid [] (removeUnsafe u) hvsf
      rw [hES] at hinv
      injection hinv with h1 h2
      exact ⟨h1, h2, hvsf⟩
  have hr2sub : ∀ c ∈ r2, c ∈ removeUnsafe u := by
    rcases hsfacts with ⟨_, h, _⟩ | ⟨_, h, _⟩
    · intro c hc
      rw [h] at hc
      exact hc
    · exact h
  have hNF := netlocStage_facts r2
  rw [hNL] at hNF
  dsimp only at hNF
  obtain ⟨hnA, hnB, hnC, hnD⟩ := hNF
  have hFF := fragStage_facts r3
  rw [hFS] at hFF
  dsimp only at hFF
  obtain ⟨hx1h, ⟨s3, hr3eq⟩, hfsub⟩ := hFF
  have hQF := queryStage_facts x1
  rw [hQS] at hQF
  dsimp only at hQF
  obtain ⟨hx1q, ⟨s2, hx1eq⟩, hqsub⟩ := hQF
  have hfa := splitParams_fst_append PPv
  rw [hSP] at hfa
  dsimp only at hfa
  obtain ⟨s1, hPPveq⟩ := hfa
  have hpsub : ∀ c ∈ path, c ∈ PPv := fun c hc =>
    splitParams_fst_mem PPv c (by rw [hSP]; exact hc)
  have hparsub : ∀ c ∈ params, c ∈ PPv := fun c hc =>
    splitParams_snd_mem PPv c (by rw [hSP]; exact hc)
  have hparslash : '/' ∉ params := by
    intro hm
    exact splitParams_snd_no_slash PPv (by rw [hSP]; exact hm)
  have hx1sub : ∀ c ∈ x1, c ∈ r3 := by
    intro c hc
    rw [hr3eq]
    exact List.mem_append.mpr (Or.inl hc)
  have hPPvsub : ∀ c ∈ PPv, c ∈ x1 := by
    intro c hc
    rw [hx1eq]
    exact List.mem_append.mpr (Or.inl hc)
  have hPPvu : ∀ c ∈ PPv, c ∈ removeUnsafe u := fun c hc =>
    hr2sub c (hnB c (hx1sub c (hPPvsub c hc)))
  have hchain : ∃ S, r3 = path ++ S := by
    refine ⟨s1 ++ s2 ++ s3, ?_⟩
    rw [hr3eq, hx1eq, hPPveq]
    simp [List.append_assoc]
  have hqnotpath : '?' ∉ path := fun hm => hx1q (hpsub '?' hm)
  have hhnotpath : '#' ∉ path := fun hm => hx1h (hPPvsub '#' (hpsub '#' hm))
  have hhead : ∀ p0 pt, path = p0 :: pt → r2.take 2 = ['/', '/'] → p0 = '/' := by
    intro p0 pt hpath ht2
    rcases hnC ht2 with hr30 | ⟨y, ys, hr3c, hy⟩
    · rcases hchain with ⟨S, hch⟩
      rw [hr30, hpath] at hch
      exact absurd hch.symm (by simp)
    · rcases hchain with ⟨S, hch⟩
      rw [hr3c, hpath, List.cons_append] at hch
      injection hch with hy0 _
      have hp0path : p0 ∈ path := by
        rw [hpath]
        exact List.mem_cons_self _ _
      have hy3 : y = '/' ∨ y = '?' ∨ y = '#' := by
        unfold netstop at hy
        simp at hy
        exact or_assoc.mp hy
      rcases hy3 with h | h | h
      · exact hy0.symm.trans h
      · exfalso
        have hpq : p0 = '?' := hy0.symm.trans h
        rw [hpq] at hp0path
        exact hqnotpath hp0path
      · exfalso
        have hph : p0 = '#' := hy0.symm.trans h
        rw [hph] at hp0path
        exact hhnotpath hp0path
  have hPF7 : s = [] → n = [] → schemeValidB path = false := by
    intro hs0 hn0
    by_cases ht2 : r2.take 2 = ['/', '/']
    · rcases hnC ht2 with hr30 | hr3c
      · rcases hchain with ⟨S, hch⟩
        rw [hr30] at hch
        rw [(List.append_eq_nil.mp hch.symm).1]
        exact schemeValidB_nil
      · cases hpath : path with
        | nil => exact schemeValidB_nil
        | cons p0 pt =>
          rw [hhead p0 pt hpath ht2]
          exact schemeValidB_cons_bad '/' pt (by decide) (by decide)
    · obtain ⟨hn_nil, hr3r2⟩ := hnD ht2
      rcases hsfacts with ⟨_, hr2u, hvsf⟩ | ⟨hsne, _, _⟩
      · rcases hchain with ⟨S, hch⟩
        apply schemeValidB_prefix_false path S
        rw [← hch, hr3r2, hr2u]
        exact hvsf
      · exact absurd hs0 hsne
  have hPF8 : n ≠ [] → path = [] ∨ path.take 1 = ['/'] := by
    intro hn
    by_cases ht2 : r2.take 2 = ['/', '/']
    · rcases hnC ht2 with hr30 | hr3c
      · left
        rcases hchain with ⟨S, hch⟩
        rw [hr30] at hch
        exact (List.append_eq_nil.mp hch.symm).1
      · cases hpath : path with
        | nil => exact Or.inl rfl
        | cons p0 pt =>
          right
          rw [hhead p0 pt hpath ht2]
          simp [List.take]
    · exact absurd (hnD ht2).1 hn
  have hPF9 : n ≠ [] → path = [] → params = [] := by
    intro hn hp0
    by_cases hPPv0 : PPv = []
    · have hSP2 := hSP
      rw [hPPv0, splitParams_nil] at hSP2
      injection hSP2 with _ h2
      exact h2.symm
    · exfalso
      cases hPPvc : PPv with
      | nil => exact hPPv0 hPPvc
      | cons v0 vt =>
        have ht2 : r2.take 2 = ['/', '/'] := by
          by_contra hc
          exact hn (hnD hc).1
        have hr3v : r3 = v0 :: (vt ++ s2 ++ s3) := by
          rw [hr3eq, hx1eq, hPPvc]
          simp [List.append_assoc]
        rcases hnC ht2 with hr30 | ⟨y, ys, hr3c, hy⟩
        · rw [hr30] at hr3v
          exact absurd hr3v (by simp)
        · rw [hr3c] at hr3v
          injection hr3v with hv0 _
          have hv0mem : v0 ∈ PPv := by
            rw [hPPvc]
            exact List.mem_cons_self _ _
          have hy3 : y = '/' ∨ y = '?' ∨ y = '#' := by
            unfold netstop at hy
            simp at hy
            exact or_assoc.mp hy
          have hv0s : v0 = '/' := by
            rcases hy3 with h | h | h
            · exact hv0.symm.trans h
            · exfalso
              have hvq : v0 = '?' := hv0.symm.trans h
              rw [hvq] at hv0mem
              exact hx1q hv0mem
            · exfalso
              have hvh : v0 = '#' := hv0.symm.trans h
              rw [hvh] at hv0mem
              exact hx1h (hPPvsub _ hv0mem)
          have hfne := splitParams_fst_ne_nil PPv hPPv0
            (by rw [hPPvc, hv0s]; simp [List.take])
          rw [hSP] at hfne
          dsimp only at hfne
          exact hfne hp0
  refine ⟨?_, ?_, ⟨hqnotpath, hhnotpath, ?_⟩, ⟨hparslash, ?_, ?_, ?_⟩,
    ⟨?_, ?_⟩, ?_, hPF7, hPF8, hPF9⟩
  · rcases hsfacts with ⟨h0, _, _⟩ | ⟨_, _, h1, h2, h3⟩
    · exact Or.inl h0
    · exact Or.inr ⟨h1, h2, h3⟩
  · intro c hc
    exact ⟨(hnA c hc).1, hr2sub c (hnA c hc).2⟩
  · intro c hc
    exact hPPvu c (hpsub c hc)
  · intro hm
    exact hx1q (hparsub '?' hm)
  · intro hm
    exact hx1h (hPPvsub '#' (hparsub '#' hm))
  · intro c hc
    exact hPPvu c (hparsub c hc)
  · intro hm
    exact hx1h (hqsub '#' hm)
  · intro c hc
    exact hr2sub c (hnB c (hx1sub c (hqsub c hc)))
  · intro c hc
    exact hr2sub c (hnB c (hfsub c hc))

/-! ### `_enc`: reparsing and idempotence -/

theorem removeUnsafe_ws_free (u : List Char) :
    ∀ c ∈ removeUnsafe u, unsafeWs c = false := by
  intro c hc
  have h := List.all_eq_true.mp (removeUnsafe_all u) c hc
  simpa using h

/-- Reparsing `_enc`'s output recovers the original components with the
path percent-quoted: the scheme (already lowercased by `urlparse`), netloc,
params, query and fragment come back unchanged. -/
theorem enc_parse (u : List Char) (ha : u.all asciiChar = true) :
    pyUrlparse [] (encL u) =
      ⟨(pyUrlparse [] u).scheme, (pyUrlparse [] u).netloc,
       pyQuote (pyUrlparse [] u).path, (pyUrlparse [] u).params,
       (pyUrlparse [] u).query, (pyUrlparse [] u).fragment⟩ := by
  obtain ⟨h1, h2, h3, h4, h5, h6, h7, h8, h9⟩ := parse_shape u
  have hu1a : ∀ c ∈ removeUnsafe u, asciiChar c = true := fun c hc =>
    List.all_eq_true.mp ha c (removeUnsafe_mem u c hc)
  have hu1w := removeUnsafe_ws_free u
  have hpa : (pyUrlparse [] u).path.all asciiChar = true :=
    List.all_eq_true.mpr (fun c hc => hu1a c (h3.2.2 c hc))
  have hmain := parse_unparse (pyUrlparse [] u).scheme (pyUrlparse [] u).netloc
    (pyQuote (pyUrlparse [] u).path) (pyUrlparse [] u).params
    (pyUrlparse [] u).query (pyUrlparse [] u).fragment
    h1
    (fun c hc => ⟨(h2 c hc).1, hu1w c (h2 c hc).2⟩)
    (pyQuote_all_safe _ hpa).1
    h4.1 h4.2.1 h4.2.2.1
    (fun c hc => hu1w c (h4.2.2.2 c hc))
    h5.1
    (fun c hc => hu1w c (h5.2 c hc))
    (fun c hc => hu1w c (h6 c hc))
    (fun hs0 hn0 _ => schemeValidB_pyQuote_false _ (h7 hs0 hn0) hpa)
    (by
      intro hn
      rcases h8 hn with h0 | ht
      · left
        rw [h0]
        rfl
      · right
        cases hp : (pyUrlparse [] u).path with
        | nil =>
          rw [hp] at ht
          simp [List.take] at ht
        | cons c t =>
          rw [hp] at ht
          have hc : c = '/' := by simpa [List.take] using ht
          subst hc
          rfl)
    (by
      intro hn h0
      exact h9 hn ((pyQuote_nil_iff _).mp h0))
  exact hmain

/-- `encL` is idempotent on ASCII inputs. -/
theorem encL_idem (u : List Char) (ha : u.all asciiChar = true) :
    encL (encL u) = encL u := by
  obtain ⟨_, _, h3, _⟩ := parse_shape u
  have hu1a : ∀ c ∈ removeUnsafe u, asciiChar c = true := fun c hc =>
    List.all_eq_true.mp ha c (removeUnsafe_mem u c hc)
  have hpa : (pyUrlparse [] u).path.all asciiChar = true :=
    List.all_eq_true.mpr (fun c hc => hu1a c (h3.2.2 c hc))
  have h1 : encL (encL u) = pyUrlunparse
      ⟨(pyUrlparse [] (encL u)).scheme, (pyUrlparse [] (encL u)).netloc,
       pyQuote (pyUrlparse [] (encL u)).path, (pyUrlparse [] (encL u)).params,
       (pyUrlparse [] (encL u)).query, (pyUrlparse [] (encL u)).fragment⟩ := rfl
  rw [h1, enc_parse u ha]
  dsimp only
  rw [pyQuote_fix _ (pyQuote_all_safe _ hpa).1]
  rfl

/-- **C9** (amended): on ASCII, bracket-free URLs, `_enc` is idempotent —
`_enc (_enc u) = _enc u`, so already-encoded `%XX` sequences are never
double-encoded — and component-wise it only percent-quotes the path: parsing
`_enc u` returns the netloc, params, query and fragment of `u` unchanged, the
path of `u` percent-quoted with safe characters `/%:@`, and the scheme of `u`
as canonicalized (lowercased) by `urlparse`; the original claim that the
scheme substring of `u` is left unchanged is refuted by the counterexample. -/
theorem enc_idempotent_path_only (u : String)
    (ha : u.data.all asciiChar = true)
    (_hbr : '[' ∉ u.data ∧ ']' ∉ u.data) :
    _enc (_enc u) = _enc u ∧
    pyUrlparse [] (_enc u).data =
      ⟨(pyUrlparse [] u.data).scheme, (pyUrlparse [] u.data).netloc,
       pyQuote (pyUrlparse [] u.data).path, (pyUrlparse [] u.data).params,
       (pyUrlparse [] u.data).query, (pyUrlparse [] u.data).fragment⟩ :=
  ⟨congrArg String.mk (encL_idem u.data ha), enc_parse u.data ha⟩

/-- Witness for C9: the hypotheses hold and the conclusion follows at the
concrete URL `http://h/a b.jpg?q=1#f`. -/
theorem enc_idempotent_path_only_witness :
    (("http://h/a b.jpg?q=1#f" : String).data.all asciiChar = true ∧
      '[' ∉ ("http://h/a b.jpg?q=1#f" : String).data ∧
      ']' ∉ ("http://h/a b.jpg?q=1#f" : String).data) ∧
    _enc (_enc "http://h/a b.jpg?q=1#f") = _enc "http://h/a b.jpg?q=1#f" :=
  ⟨⟨by decide, by decide, by decide⟩,
    (enc_idempotent_path_only "http://h/a b.jpg?q=1#f" (by decide)
      ⟨by decide, by decide⟩).1⟩

/-- **C9** counterexample to the original claim: `_enc` does not leave the
scheme of the URL unchanged — `urlparse` lowercases the scheme, so the
uppercase scheme of `HTTP://h/p` comes back as `http`. -/
theorem enc_lowercases_scheme :
    _enc "HTTP://h/p" = "http://h/p" ∧ ("HTTP://h/p" : String) ≠ "http://h/p" :=
  ⟨by decide, by decide⟩

end Picmap
